import Mathlib

/-!
Verification of the pyappm TOML-like configuration engine
(`toml_tokenizer.py`, `toml_parser.py`, `simple_toml.py`, `dotdict.py`).

The Python sources are shallowly embedded below: pure functions become Lean
functions, the parser's mutable cursor becomes explicit index passing, Python
exceptions become `Except` errors, and the parser's (possibly non-terminating)
while-loops take an explicit fuel argument, with fuel exhaustion reported as a
distinguished error.
-/

namespace Pyappm

/-! ## Tokens (`toml_tokenizer.py`, class `TomlToken`)

Python tokens carry a `token_type` string and a payload.  The token types used
by the tokenizer are: EQUAL, LBRACKET, RBRACKET, LCURLY, RCURLY, QUOTE, COMMA,
COMMENT, LF, CR, SPACE, CHAR, EOF.  The payload of every tokenizer-produced
token is the one-character string of the classified character (empty for EOF).
-/

inductive TokKind where
  | equal
  | lbracket
  | rbracket
  | lcurly
  | rcurly
  | quote
  | comma
  | comment
  | lf
  | cr
  | space
  | char
  | eof
deriving DecidableEq, Repr

/-- The Python `token_type` string of each token kind. -/
def kindName : TokKind → String
  | .equal => "EQUAL"
  | .lbracket => "LBRACKET"
  | .rbracket => "RBRACKET"
  | .lcurly => "LCURLY"
  | .rcurly => "RCURLY"
  | .quote => "QUOTE"
  | .comma => "COMMA"
  | .comment => "COMMENT"
  | .lf => "LF"
  | .cr => "CR"
  | .space => "SPACE"
  | .char => "CHAR"
  | .eof => "EOF"

structure TomlToken where
  kind : TokKind
  value : String
deriving DecidableEq, Repr

/-! ## Tokenizer (`toml_tokenizer.py`, class `TomlTokenizer`) -/

/-- One step of `TomlTokenizer.read_tokens`: classify a single character. -/
def classifyChar (c : Char) : TomlToken :=
  if c = '=' then ⟨.equal, String.mk [c]⟩
  else if c = '[' then ⟨.lbracket, String.mk [c]⟩
  else if c = ']' then ⟨.rbracket, String.mk [c]⟩
  else if c = '\x7b' then ⟨.lcurly, String.mk [c]⟩
  else if c = '\x7d' then ⟨.rcurly, String.mk [c]⟩
  else if c = '"' ∨ c = '\'' then ⟨.quote, String.mk [c]⟩
  else if c = ',' then ⟨.comma, String.mk [c]⟩
  else if c = '#' then ⟨.comment, String.mk [c]⟩
  else if c = '\n' then ⟨.lf, String.mk [c]⟩
  else if c = '\r' then ⟨.cr, String.mk [c]⟩
  else if c = ' ' then ⟨.space, String.mk [c]⟩
  else ⟨.char, String.mk [c]⟩

/-- `TomlTokenizer.read_tokens`: append one token per character of the line to
the accumulated token list. -/
def readTokens (tokens : List TomlToken) (line : String) : List TomlToken :=
  line.data.foldl (fun ts c => ts ++ [classifyChar c]) tokens

/-- Translation of Python `line.startswith("#")`. -/
def startsWithHash (line : String) : Bool :=
  match line.data with
  | [] => false
  | c :: _ => c = '#'

/-- `TomlTokenizer.tokenize`: the file is modelled as the list of lines that
Python's file iteration yields (each line includes its trailing newline).
Empty lines are skipped (`if not line: continue`), lines starting with `#` are
skipped, every other line is tokenized character by character, and a single
EOF token is appended. -/
def tokenize (lines : List String) : List TomlToken :=
  (lines.foldl
    (fun ts line =>
      if line = "" then ts
      else if startsWithHash line then ts
      else readTokens ts line)
    []) ++ [⟨.eof, ""⟩]

/-- Python text-file line iteration: split the text after each newline
character; a final fragment without a trailing newline is still yielded.
(The writer only ever emits LF newlines, so universal-newline translation is
the identity on its output.) -/
def splitLinesAux : List Char → List Char → List String
  | [], acc => if acc.isEmpty then [] else [String.mk acc.reverse]
  | c :: rest, acc =>
    if c = '\n' then String.mk (acc.reverse ++ ['\n']) :: splitLinesAux rest []
    else splitLinesAux rest (c :: acc)

def splitLines (s : String) : List String := splitLinesAux s.data []

/-! ## Document values

The parser returns Python values: `str`, `bool`, `list`, and `DotDict`
(a `dict` subclass).  Python `dict` keys appearing in this engine are either
strings or booleans (a boolean key arises when an identifier token is coerced
by the `True`/`False` branch of `_parse_identifier`). -/

inductive PyKey where
  | str (s : String)
  | bool (b : Bool)
deriving DecidableEq, Repr

inductive Value where
  | str (s : String)
  | bool (b : Bool)
  | list (vs : List Value)
  | table (kvs : List (PyKey × Value))
deriving Repr

/-- A Document is a DotDict: an insertion-ordered map, modelled as an
association list with unique keys. -/
abbrev Document := List (PyKey × Value)

/-- Python dict assignment `d[k] = v`: overwrite in place if the key exists
(keeping its position), otherwise append at the end. -/
def dictInsert (kvs : List (PyKey × Value)) (k : PyKey) (v : Value) :
    List (PyKey × Value) :=
  if kvs.any (fun p => p.1 == k) then
    kvs.map (fun p => if p.1 == k then (k, v) else p)
  else kvs ++ [(k, v)]

/-- Python `d.get(k)` / `d[k]` lookup. -/
def dlookup (kvs : List (PyKey × Value)) (k : PyKey) : Option Value :=
  (kvs.find? (fun p => p.1 == k)).map (fun p => p.2)

/-- Whether a value is a table (`isinstance(value, DotDict)`). -/
def isTableV : Value → Bool
  | .table _ => true
  | _ => false

/-- All top-level entries of a Document are tables. -/
def topAllTables (d : Document) : Prop := ∀ p ∈ d, isTableV p.2 = true

/-! ## Parser (`toml_parser.py`, class `TomlParser`)

The parser's intermediate results are `TomlToken` objects whose payloads are
strings, booleans, tuples, lists, or dicts.  They are modelled by the sum type
`PTok` (one constructor per `token_type` the parser creates).  The dict built
by `_parse_dict` is keyed by token *objects* (Python identity), so it never
merges entries; it is modelled as a list of pairs in insertion order. -/

inductive PTok where
  | string (s : String)
  | identifier (s : String)
  | bool (b : Bool)
  | comment (s : String)
  | sect (s : String)
  | keyValue (ident : PTok) (val : PTok)
  | list (vs : List PTok)
  | dict (kvs : List (PTok × PTok))
  | eof
deriving Repr

/-- The Python `token_type` string of each parser-produced token. -/
def ptokName : PTok → String
  | .string _ => "STRING"
  | .identifier _ => "IDENTIFIER"
  | .bool _ => "BOOL"
  | .comment _ => "COMMENT"
  | .sect _ => "SECTION"
  | .keyValue _ _ => "KEY_VALUE"
  | .list _ => "LIST"
  | .dict _ => "DICT"
  | .eof => "EOF"

/-- Errors a parse can raise: Python `ValueError(msg)`, `IndexError` (token
list access out of bounds), `AttributeError` (calling `.replace` on a
non-string), `TypeError` (unhashable dict key), and exhaustion of the fuel
bounding the possibly non-terminating while-loops. -/
inductive PErr where
  | valueError (msg : String)
  | indexError
  | attrError
  | typeError
  | outOfFuel
deriving DecidableEq, Repr

abbrev PRes (α : Type) := Except PErr α

/-- `self._current()`: `self.tokens[self.index]`. -/
def currentTok (ts : List TomlToken) (i : Nat) : PRes TomlToken :=
  match ts.get? i with
  | some t => .ok t
  | none => .error .indexError

/-- `self._next()`: increment the index and read the token there. -/
def nextTok (ts : List TomlToken) (i : Nat) : PRes (TomlToken × Nat) :=
  match ts.get? (i + 1) with
  | some t => .ok (t, i + 1)
  | none => .error .indexError

/-- `self._peek()`: `self.tokens[self.index + 1]`. -/
def peekTok (ts : List TomlToken) (i : Nat) : PRes TomlToken :=
  currentTok ts (i + 1)

/-- Python slice `self.tokens[a:b]` (end-exclusive, clamped). -/
def sliceToks (ts : List TomlToken) (a b : Nat) : List TomlToken :=
  (ts.drop a).take (b - a)

/-- `"".join(str(token.value) for token in toks)`. -/
def joinVals (toks : List TomlToken) : String :=
  String.mk (toks.flatMap (fun t => t.value.data))

/-- `_is_whitespace`. -/
def isWsTok (t : TomlToken) : Bool :=
  t.kind == .space || t.kind == .lf || t.kind == .cr

/-- The while-loop of `_skip_whitespace`. -/
def skipWsLoop (ts : List TomlToken) (i : Nat) : Nat → PRes Nat
  | 0 => .error .outOfFuel
  | n + 1 => do
    let c ← currentTok ts i
    if isWsTok c then do
      let (_, i1) ← nextTok ts i
      skipWsLoop ts i1 n
    else
      pure i

/-- `_skip_whitespace`: the loop, then the two (dead) trailing LF/CR checks. -/
def skipWhitespace (ts : List TomlToken) (i : Nat) : Nat → PRes Nat
  | 0 => .error .outOfFuel
  | n + 1 => do
    let i1 ← skipWsLoop ts i n
    let c1 ← currentTok ts i1
    let i2 ← if c1.kind == .lf then do
        let (_, j) ← nextTok ts i1
        pure j
      else pure i1
    let c2 ← currentTok ts i2
    if c2.kind == .cr then do
      let (_, j) ← nextTok ts i2
      pure j
    else pure i2

/-- The scan loop of `_parse_string`: advance while the current token is not a
QUOTE; returns the index of the closing quote. -/
def scanString (ts : List TomlToken) (i : Nat) : Nat → PRes Nat
  | 0 => .error .outOfFuel
  | n + 1 => do
    let c ← currentTok ts i
    if c.kind == .quote then pure i
    else do
      let (_, i1) ← nextTok ts i
      scanString ts i1 n

/-- `_parse_string`. -/
def parseString (ts : List TomlToken) (i : Nat) : Nat → PRes (PTok × Nat)
  | 0 => .error .outOfFuel
  | n + 1 => do
    let (_, i1) ← nextTok ts i
    let e ← scanString ts i1 n
    let value := joinVals (sliceToks ts i1 e)
    let (_, i2) ← nextTok ts e
    pure (.string value, i2)

/-- The scan loop of `_parse_identifier`: advance while the *next* token is a
CHAR; returns the index of the last CHAR of the run. -/
def scanIdent (ts : List TomlToken) (i : Nat) : Nat → PRes Nat
  | 0 => .error .outOfFuel
  | n + 1 => do
    let p ← peekTok ts i
    if p.kind == .char then do
      let (_, i1) ← nextTok ts i
      scanIdent ts i1 n
    else pure i

/-- `_parse_identifier`.  Python evaluates the guard
`isvalue is True and value == "True" or value == "False"` with `and` binding
tighter than `or`, and `bool(value)` on a string tests non-emptiness. -/
def parseIdentifier (isvalue : Bool) (ts : List TomlToken) (i : Nat) :
    Nat → PRes (PTok × Nat)
  | 0 => .error .outOfFuel
  | n + 1 => do
    let e ← scanIdent ts i n
    let value := joinVals (sliceToks ts i (e + 1))
    let tok : PTok :=
      if (isvalue = true ∧ value = "True") ∨ value = "False" then
        .bool (value ≠ "")
      else .identifier value
    let (_, i1) ← nextTok ts e
    pure (tok, i1)

/-- The scan loop of `_parse_comment`: advance while the next token is not LF. -/
def scanComment (ts : List TomlToken) (i : Nat) : Nat → PRes Nat
  | 0 => .error .outOfFuel
  | n + 1 => do
    let p ← peekTok ts i
    if p.kind == .lf then pure i
    else do
      let (_, i1) ← nextTok ts i
      scanComment ts i1 n

/-- `_parse_comment` (the cursor is left at the end index; Python does not
advance past it). -/
def parseComment (ts : List TomlToken) (i : Nat) : Nat → PRes (PTok × Nat)
  | 0 => .error .outOfFuel
  | n + 1 => do
    let e ← scanComment ts i n
    pure (.comment (joinVals (sliceToks ts i e)), e)

/-- The scan loop of `_parse_section`: `while self._next() != RBRACKET`;
returns the index of the closing RBRACKET. -/
def scanSection (ts : List TomlToken) (i : Nat) : Nat → PRes Nat
  | 0 => .error .outOfFuel
  | n + 1 => do
    let (t, i1) ← nextTok ts i
    if t.kind == .rbracket then pure i1
    else scanSection ts i1 n

/-- `_parse_section`. -/
def parseSection (ts : List TomlToken) (i : Nat) : Nat → PRes (PTok × Nat)
  | 0 => .error .outOfFuel
  | n + 1 => do
    let (_, i1) ← nextTok ts i
    let e ← scanSection ts i1 n
    let value := joinVals (sliceToks ts i1 e)
    let (_, i2) ← nextTok ts e
    pure (.sect value, i2)

mutual

/-- `_parse_key_value`. -/
def parseKeyValue (ts : List TomlToken) (i : Nat) : Nat → PRes (PTok × Nat)
  | 0 => .error .outOfFuel
  | n + 1 => do
    let (ident, i1) ← parseIdentifier false ts i n
    let i2 ← skipWhitespace ts i1 n
    let c ← currentTok ts i2
    if c.kind == .equal then do
      let (_, i3) ← nextTok ts i2
      let (v, i4) ← parseToken true ts i3 n
      pure (.keyValue ident v, i4)
    else .error (.valueError "Expected equal sign")
termination_by structural fuel => fuel

/-- The while-loop of `_parse_list`. -/
def listLoop (ts : List TomlToken) (i : Nat) (values : List PTok) :
    Nat → PRes (List PTok × Nat)
  | 0 => .error .outOfFuel
  | n + 1 => do
    let c ← currentTok ts i
    if c.kind == .rbracket then pure (values, i)
    else do
      let (v, i1) ← parseToken true ts i n
      let values1 := values ++ [v]
      let i2 ← skipWhitespace ts i1 n
      let c2 ← currentTok ts i2
      if c2.kind == .comma then do
        let (_, i3) ← nextTok ts i2
        let i4 ← skipWhitespace ts i3 n
        let c3 ← currentTok ts i4
        if c3.kind == .rbracket then .error (.valueError "Unexpected comma")
        else listLoop ts i4 values1 n
      else listLoop ts i2 values1 n
termination_by structural fuel => fuel

/-- `_parse_list`. -/
def parseList (ts : List TomlToken) (i : Nat) : Nat → PRes (PTok × Nat)
  | 0 => .error .outOfFuel
  | n + 1 => do
    let (_, i1) ← nextTok ts i
    let i2 ← skipWhitespace ts i1 n
    let (values, i3) ← listLoop ts i2 [] n
    let c ← currentTok ts i3
    if c.kind == .rbracket then do
      let (_, i4) ← nextTok ts i3
      pure (.list values, i4)
    else .error (.valueError "Expected right bracket")
termination_by structural fuel => fuel

/-- The while-loop of `_parse_dict`.  `values[key] = value` keys the dict by
the freshly created token object, so every iteration appends a new entry. -/
def dictLoop (ts : List TomlToken) (i : Nat) (values : List (PTok × PTok)) :
    Nat → PRes (List (PTok × PTok) × Nat)
  | 0 => .error .outOfFuel
  | n + 1 => do
    let c ← currentTok ts i
    if c.kind == .rcurly then pure (values, i)
    else do
      let (key, i1) ← parseIdentifier false ts i n
      let i2 ← skipWhitespace ts i1 n
      let c1 ← currentTok ts i2
      if c1.kind == .equal then do
        let (_, i3) ← nextTok ts i2
        let (v, i4) ← parseToken true ts i3 n
        let values1 := values ++ [(key, v)]
        let i5 ← skipWhitespace ts i4 n
        let c2 ← currentTok ts i5
        if c2.kind == .comma then do
          let (_, i6) ← nextTok ts i5
          let i7 ← skipWhitespace ts i6 n
          let c3 ← currentTok ts i7
          if c3.kind == .rcurly then .error (.valueError "Unexpected comma")
          else dictLoop ts i7 values1 n
        else dictLoop ts i5 values1 n
      else .error (.valueError "Expected equal sign")
termination_by structural fuel => fuel

/-- `_parse_dict`. -/
def parseDict (ts : List TomlToken) (i : Nat) : Nat → PRes (PTok × Nat)
  | 0 => .error .outOfFuel
  | n + 1 => do
    let (_, i1) ← nextTok ts i
    let i2 ← skipWhitespace ts i1 n
    let (values, i3) ← dictLoop ts i2 [] n
    let c ← currentTok ts i3
    if c.kind == .rcurly then do
      let (_, i4) ← nextTok ts i3
      pure (.dict values, i4)
    else .error (.valueError "Expected right curly bracket")
termination_by structural fuel => fuel

/-- `_parse_token`. -/
def parseToken (value : Bool) (ts : List TomlToken) (i : Nat) :
    Nat → PRes (PTok × Nat)
  | 0 => .error .outOfFuel
  | n + 1 => do
    let i1 ← skipWhitespace ts i n
    let t ← currentTok ts i1
    match t.kind with
    | .lbracket => if value then parseList ts i1 n else parseSection ts i1 n
    | .char =>
      if value then parseIdentifier true ts i1 n else parseKeyValue ts i1 n
    | .lcurly => parseDict ts i1 n
    | .quote => parseString ts i1 n
    | .comment => parseComment ts i1 n
    | .eof => pure (.eof, i1)
    | k => .error (.valueError ("Unexpected token " ++ kindName k))
termination_by structural fuel => fuel

end

/-- The while-loop of `_parse_inner`: parse top-level tokens until EOF,
skipping COMMENT tokens. -/
def innerLoop (ts : List TomlToken) (i : Nat) (acc : List PTok) :
    Nat → PRes (List PTok)
  | 0 => .error .outOfFuel
  | n + 1 =>
    if i < ts.length then do
      let (t, i1) ← parseToken false ts i n
      match t with
      | .eof => pure acc
      | .comment _ => innerLoop ts i1 acc n
      | _ => innerLoop ts i1 (acc ++ [t]) n
    else pure acc

/-- `_parse_inner`. -/
def parseInner (ts : List TomlToken) (fuel : Nat) : PRes (List PTok) :=
  if ts.length = 0 then .ok [] else innerLoop ts 0 [] fuel

/-- The key used when a `_parse_dict` entry is rebuilt by `_parse_value`
(`{k.value: ... for k, v in ...}`): the token's payload is used as the dict
key; list/dict/tuple payloads are unhashable in Python. -/
def ptokAsKey : PTok → PRes PyKey
  | .identifier s => .ok (.str s)
  | .string s => .ok (.str s)
  | .comment s => .ok (.str s)
  | .sect s => .ok (.str s)
  | .bool b => .ok (.bool b)
  | .eof => .ok (.str "")
  | .keyValue _ _ => .error .typeError
  | .list _ => .error .typeError
  | .dict _ => .error .typeError

mutual

/-- `_parse_value`: convert a parser token into a Python value. -/
def parseValuePy : PTok → PRes Value
  | .string s => .ok (.str s)
  | .identifier s => .ok (.str s)
  | .bool b => .ok (.bool b)
  | .list vs => do
    let ws ← parseValueItems vs
    pure (.list ws)
  | .dict kvs => do
    let ws ← parseValuePairs kvs []
    pure (.table ws)
  | t => .error (.valueError ("Unexpected token " ++ ptokName t))

/-- The list comprehension in the LIST branch of `_parse_value`. -/
def parseValueItems : List PTok → PRes (List Value)
  | [] => .ok []
  | v :: rest => do
    let w ← parseValuePy v
    let ws ← parseValueItems rest
    pure (w :: ws)

/-- The dict comprehension in the DICT branch of `_parse_value`, building a
fresh string-keyed dict in iteration order. -/
def parseValuePairs : List (PTok × PTok) → List (PyKey × Value) →
    PRes (List (PyKey × Value))
  | [], acc => .ok acc
  | (k, v) :: rest, acc => do
    let key ← ptokAsKey k
    let w ← parseValuePy v
    parseValuePairs rest (dictInsert acc key w)

end

/-- Translation of `ident.value.replace("-", "_")` (a single-character
pattern, so it replaces each `-` character by `_`); `.replace` exists only on
string payloads, any other payload raises `AttributeError`. -/
def keyValueIdentKey : PTok → PRes String
  | .identifier s => .ok (String.mk (s.data.map (fun c => if c = '-' then '_' else c)))
  | .string s => .ok (String.mk (s.data.map (fun c => if c = '-' then '_' else c)))
  | .comment s => .ok (String.mk (s.data.map (fun c => if c = '-' then '_' else c)))
  | .sect s => .ok (String.mk (s.data.map (fun c => if c = '-' then '_' else c)))
  | .eof => .ok ""
  | .bool _ => .error .attrError
  | .keyValue _ _ => .error .attrError
  | .list _ => .error .attrError
  | .dict _ => .error .attrError

/-- The for-loop of `TomlParser.parse`.  `layer` aliases the table object
stored in `result` under the current section key, so an insertion into
`layer` is written back into `result` at that key. -/
def buildLoop : List PTok → Document → Option (PyKey × List (PyKey × Value)) →
    PRes Document
  | [], result, _ => .ok result
  | t :: rest, result, cur =>
    match t with
    | .sect s =>
      buildLoop rest (dictInsert result (.str s) (.table [])) (some (.str s, []))
    | .keyValue ident value => do
      let key ← keyValueIdentKey ident
      let v ← parseValuePy value
      match cur with
      | none => buildLoop rest (dictInsert result (.str key) v) none
      | some (sk, layer) =>
        let layer1 := dictInsert layer (.str key) v
        buildLoop rest
          (result.map (fun p => if p.1 == sk then (sk, Value.table layer1) else p))
          (some (sk, layer1))
    | other => .error (.valueError ("Unexpected token " ++ ptokName other))

/-- `TomlParser.parse`: run `_parse_inner`, then fold the resulting SECTION /
KEY_VALUE tokens into a Document. -/
def parseToml (ts : List TomlToken) (fuel : Nat) : PRes Document := do
  let rtokens ← parseInner ts fuel
  buildLoop rtokens [] none

/-- Tokenize-then-parse, from the file's lines (the `TomlReader.read` path). -/
def parseTomlLines (lines : List String) (fuel : Nat) : PRes Document :=
  parseToml (tokenize lines) fuel

/-- Tokenize-then-parse, from the file's full text. -/
def parseTomlText (text : String) (fuel : Nat) : PRes Document :=
  parseTomlLines (splitLines text) fuel

/-- The token list of the unterminated-list input `"[a]\nb=[1, 2\n"` of the
spec's unterminated-bracket example. -/
def c5toks : List TomlToken := tokenize (splitLines "[a]\nb=[1, 2\n")

/-! ## Writer (`simple_toml.py`, class `TomlWriter`)

The writer is modelled as producing the written text; the `dolf` flags and
incremental file writes of the Python code only affect where newlines are
emitted, which the model reproduces.  `f"{value}"` on a Python bool yields
`True`/`False`. -/

def pyBoolStr (b : Bool) : String := if b then "True" else "False"

/-- `f"{key}"` for a dict key (a string or a bool). -/
def keyStr : PyKey → String
  | .str s => s
  | .bool b => pyBoolStr b

mutual

/-- `__write_value__` (with `dolf=False`, as used for all nested values). -/
def writeValue : Value → String
  | .table kvs => "\x7b" ++ writeDictItems kvs ++ "\x7d"
  | .list vs => "[" ++ writeListItems vs ++ "]"
  | .str s => "\"" ++ s ++ "\""
  | .bool b => pyBoolStr b

/-- The element loop of `__write_list__`: `", "` between elements. -/
def writeListItems : List Value → String
  | [] => ""
  | [v] => writeValue v
  | v :: rest => writeValue v ++ ", " ++ writeListItems rest

/-- The item loop of `__write_dict__` with `root=False`: `key=value` pairs
joined by `", "`. -/
def writeDictItems : List (PyKey × Value) → String
  | [] => ""
  | [(k, v)] => keyStr k ++ "=" ++ writeValue v
  | (k, v) :: rest => keyStr k ++ "=" ++ writeValue v ++ ", " ++ writeDictItems rest

end

/-- The item loop of `__write_dict__` with `root=True`: one `key=value` line
per item. -/
def writeRootLines : List (PyKey × Value) → String
  | [] => ""
  | (k, v) :: rest => keyStr k ++ "=" ++ writeValue v ++ "\n" ++ writeRootLines rest

/-- `__write_data__`: every top-level value must be a DotDict; each is written
as a `[key]` header, its key-value lines, and a blank separator line. -/
def writeData : Document → Except String String
  | [] => .ok ""
  | (k, v) :: rest =>
    match v with
    | .table t =>
      (writeData rest).map
        (fun out => "[" ++ keyStr k ++ "]\n" ++ writeRootLines t ++ "\n" ++ out)
    | _ => .error "Value of a section must be a DotDict"

/-- `TomlWriter.write` (the outer `isinstance(data, DotDict)` check is
satisfied by typing). -/
def writeToml (d : Document) : Except String String := writeData d

/-! ## Round-trip infrastructure (claim C1)

Specification devices relating the writer's output to the parser: the token
encoding of a piece of text, segment containment in a token list, the classes
of keys and string values that survive a write/parse round trip, and the
parser tokens that re-parsing a written document yields. -/

/-- The tokens the tokenizer produces for a piece of text (one per character). -/
def charToks (s : String) : List TomlToken := s.data.map classifyChar

/-- The token list `ts` contains the segment `seg` starting at index `i`. -/
def SegAt (ts : List TomlToken) (i : Nat) (seg : List TomlToken) : Prop :=
  ∀ k, k < seg.length → ts.get? (i + k) = seg.get? k

/-- Keys that survive the round trip: non-empty, every character classified
CHAR by the tokenizer, no `-` (which `parse` would rewrite), and not the word
`False` (which `_parse_identifier` coerces to a boolean). -/
def goodKeyStr (s : String) : Prop :=
  s ≠ "" ∧ s ≠ "False" ∧ ∀ c ∈ s.data, (classifyChar c).kind = .char ∧ c ≠ '-'

/-- String values that survive the round trip: no quote characters (the
writer does not escape them) and no line-control characters. -/
def goodStr (s : String) : Prop :=
  ∀ c ∈ s.data, c ≠ '"' ∧ c ≠ '\'' ∧ c ≠ '\n' ∧ c ≠ '\r'

/-- Values of the round-trip class of claim C1: strings, lists, and inline
tables (with good keys, unique per table), nested arbitrarily. -/
inductive GoodValue : Value → Prop where
  | str (s : String) : goodStr s → GoodValue (.str s)
  | list (vs : List Value) : (∀ v ∈ vs, GoodValue v) → GoodValue (.list vs)
  | table (kvs : List (PyKey × Value)) :
      (∀ p ∈ kvs, ∃ s, p.1 = PyKey.str s ∧ goodKeyStr s) →
      (∀ p ∈ kvs, GoodValue p.2) →
      (kvs.map Prod.fst).Nodup →
      GoodValue (.table kvs)

/-- Documents of the round-trip class: every top-level entry a table with a
good key, top-level keys unique. -/
def GoodDoc (d : Document) : Prop :=
  (∀ p ∈ d, (∃ s, p.1 = PyKey.str s ∧ goodKeyStr s) ∧
    ∃ t, p.2 = Value.table t ∧ GoodValue (Value.table t)) ∧
  (d.map Prod.fst).Nodup

mutual

/-- The parser token produced by re-parsing the written form of a value. -/
def ptokOfValue : Value → PTok
  | .str s => .string s
  | .bool b => .bool b
  | .list vs => .list (ptokOfList vs)
  | .table kvs => .dict (ptokOfTable kvs)

/-- Parser tokens of a written list of values. -/
def ptokOfList : List Value → List PTok
  | [] => []
  | v :: rest => ptokOfValue v :: ptokOfList rest

/-- Parser tokens of a written inline table. -/
def ptokOfTable : List (PyKey × Value) → List (PTok × PTok)
  | [] => []
  | (k, v) :: rest => (.identifier (keyStr k), ptokOfValue v) :: ptokOfTable rest

end

/-- The top-level parser tokens produced by re-parsing a written document. -/
def docPtoks (d : Document) : List PTok :=
  d.flatMap (fun p =>
    PTok.sect (keyStr p.1) ::
      (match p.2 with
       | .table t =>
         t.map (fun q => PTok.keyValue (.identifier (keyStr q.1)) (ptokOfValue q.2))
       | _ => []))

/-- The text `writeData` produces on success. -/
def docText : Document → String
  | [] => ""
  | (k, v) :: rest =>
    (match v with
     | .table t => "[" ++ keyStr k ++ "]\n" ++ writeRootLines t ++ "\n"
     | _ => "") ++ docText rest

/-- Texts whose lines (each terminated by LF) contain no interior newline and
do not start with `#`: the class of texts on which file-line tokenization is
exactly character-by-character classification. -/
inductive CleanText : List Char → Prop where
  | nil : CleanText []
  | line (body rest : List Char) :
      '\n' ∉ body → body.head? ≠ some '#' → CleanText rest →
      CleanText (body ++ '\n' :: rest)

/-! ## DotDict attribute access (`dotdict.py`) -/

/-- `DotDict.__getattr__`: look the name up with `self.get`; a stored DotDict
is returned as-is (the same object), an absent name inserts and returns a
fresh empty DotDict, any other value is returned as-is.  Returns the value
together with the (possibly mutated) dictionary. -/
def dotDictGetattr (d : Document) (item : String) : Value × Document :=
  match dlookup d (.str item) with
  | some v => (v, d)
  | none => (.table [], dictInsert d (.str item) (.table []))

/-- A chained attribute read `d.k1.k2`.  The table returned by the first
access is the same object as the one stored in `d` (Python aliasing), so the
mutation performed by the second access is written back into `d` under `k1`.
Attribute access on a non-dict value raises `AttributeError`. -/
def dotDictGetattrChain (d : Document) (k1 k2 : String) :
    PRes (Value × Document) :=
  let (v1, d1) := dotDictGetattr d k1
  match v1 with
  | .table t1 =>
    let (v2, t2) := dotDictGetattr t1 k2
    .ok (v2, d1.map (fun p => if p.1 == PyKey.str k1 then (p.1, Value.table t2) else p))
  | _ => .error .attrError

/-! ## General lemmas about the embedding -/

theorem exceptBindOk {α β : Type} (a : α) (f : α → PRes β) :
    (Except.ok a >>= f : PRes β) = f a := rfl

theorem exceptBindErr {α β : Type} (e : PErr) (f : α → PRes β) :
    (Except.error e >>= f : PRes β) = .error e := rfl

theorem exceptPure {α : Type} (a : α) : (pure a : PRes α) = .ok a := rfl

theorem foldlAppendMap (cs : List Char) :
    ∀ acc : List TomlToken,
      cs.foldl (fun ts c => ts ++ [classifyChar c]) acc = acc ++ cs.map classifyChar := by
  induction cs with
  | nil => intro acc; simp
  | cons c cs ih => intro acc; simp [List.foldl_cons, ih]

theorem readTokens_eq (acc : List TomlToken) (l : String) :
    readTokens acc l = acc ++ l.data.map classifyChar :=
  foldlAppendMap l.data acc

theorem tokenizeFold_eq (lines : List String) :
    ∀ acc : List TomlToken,
      lines.foldl
        (fun ts line =>
          if line = "" then ts
          else if startsWithHash line then ts
          else readTokens ts line) acc
      = acc ++ lines.flatMap
          (fun l => if startsWithHash l then [] else l.data.map classifyChar) := by
  induction lines with
  | nil => intro acc; simp
  | cons l rest ih =>
    intro acc
    simp only [List.foldl_cons, List.flatMap_cons]
    by_cases h0 : l = ""
    · subst h0
      have h1 : startsWithHash "" = false := rfl
      have h2 : ("" : String).data = [] := rfl
      simp [h1, h2, ih]
    · by_cases h1 : startsWithHash l = true
      · simp [h0, h1, ih]
      · rw [if_neg h0, if_neg (by simp [h1]), ih, readTokens_eq, if_neg (by simp [h1])]
        simp

theorem iteKindNe {c : Prop} [Decidable c] {a b x : TokKind} (ha : a ≠ x) (hb : b ≠ x) :
    (if c then a else b) ≠ x := by
  split <;> assumption

theorem classifyChar_kind_ne_eof (c : Char) : (classifyChar c).kind ≠ .eof := by
  unfold classifyChar
  simp only [apply_ite TomlToken.kind]
  repeat' apply iteKindNe
  all_goals decide

theorem dlookup_none_not_mem (kvs : List (PyKey × Value)) (k : PyKey)
    (h : dlookup kvs k = none) : ∀ p ∈ kvs, (p.1 == k) = false := by
  intro p hp
  unfold dlookup at h
  rw [Option.map_eq_none'] at h
  have := List.find?_eq_none.mp h p hp
  simpa using this

theorem dictInsert_of_dlookup_none (kvs : List (PyKey × Value)) (k : PyKey)
    (v : Value) (h : dlookup kvs k = none) :
    dictInsert kvs k v = kvs ++ [(k, v)] := by
  unfold dictInsert
  have hany : kvs.any (fun p => p.1 == k) = false := by
    rw [List.any_eq_false]
    intro p hp
    simp [dlookup_none_not_mem kvs k h p hp]
  rw [hany]
  simp

theorem dotDictGetattr_of_none (d : Document) (item : String)
    (h : dlookup d (.str item) = none) :
    dotDictGetattr d item = (.table [], d ++ [(.str item, .table [])]) := by
  unfold dotDictGetattr
  rw [h, dictInsert_of_dlookup_none _ _ _ h]

theorem topAllTables_dictInsert (kvs : List (PyKey × Value)) (k : PyKey)
    (t : List (PyKey × Value)) (h : topAllTables kvs) :
    topAllTables (dictInsert kvs k (.table t)) := by
  unfold dictInsert
  split
  · intro p hp
    rw [List.mem_map] at hp
    obtain ⟨q, hq, rfl⟩ := hp
    by_cases hk : (q.1 == k) = true
    · simp [hk, isTableV]
    · simp only [Bool.not_eq_true] at hk
      simp only [hk, if_false]
      exact h q hq
  · intro p hp
    rcases List.mem_append.mp hp with hq | hq
    · exact h p hq
    · simp at hq
      simp [hq, isTableV]

theorem buildLoop_tables (rtoks : List PTok) :
    ∀ (result : Document) (sk : PyKey) (layer : List (PyKey × Value)) (d : Document),
      topAllTables result →
      buildLoop rtoks result (some (sk, layer)) = .ok d → topAllTables d := by
  induction rtoks with
  | nil =>
    intro result sk layer d hres hok
    simp [buildLoop] at hok
    exact hok ▸ hres
  | cons t rest ih =>
    intro result sk layer d hres hok
    match t with
    | .sect s =>
      rw [buildLoop] at hok
      exact ih _ _ _ _ (topAllTables_dictInsert _ _ _ hres) hok
    | .keyValue ident value =>
      rw [buildLoop] at hok
      rcases hkk : keyValueIdentKey ident with e | key <;> rw [hkk] at hok
      · simp [exceptBindErr] at hok
      rcases hvv : parseValuePy value with e | v <;> rw [hvv] at hok
      · simp [exceptBindOk, exceptBindErr] at hok
      simp only [exceptBindOk] at hok
      refine ih _ _ _ _ ?_ hok
      intro p hp
      rw [List.mem_map] at hp
      obtain ⟨q, hq, rfl⟩ := hp
      by_cases hk : (q.1 == sk) = true
      · simp [hk, isTableV]
      · simp only [Bool.not_eq_true] at hk
        simp only [hk, if_false]
        exact hres q hq
    | .string s => simp [buildLoop] at hok
    | .identifier s => simp [buildLoop] at hok
    | .bool b => simp [buildLoop] at hok
    | .comment s => simp [buildLoop] at hok
    | .list vs => simp [buildLoop] at hok
    | .dict kvs => simp [buildLoop] at hok
    | .eof => simp [buildLoop] at hok

/-! ## Claims -/

/-- Claim C2 (corrected): parsing `"[a]\nb=True\n"` does NOT yield a document
storing the bare word `True` as opaque text: the engine itself coerces it. -/
theorem C2_counterexample :
    parseTomlText "[a]\nb=True\n" 100 ≠
      .ok [(.str "a", .table [(.str "b", .str "True")])] := by
  intro h
  have h2 : parseTomlText "[a]\nb=True\n" 100 =
      .ok [(.str "a", .table [(.str "b", .bool true)])] := rfl
  rw [h2] at h
  simp at h

/-- Claim C2 (amended): parsing `"[a]\nb=True\n"` yields `{a: {b: True}}`
with `True` the Python boolean: `_parse_identifier` coerces the value-position
bare words `True`/`False` itself via `bool()`; the consumer layer never sees
an opaque `Bare("True")`. -/
theorem C2_amended :
    parseTomlText "[a]\nb=True\n" 100 =
      .ok [(.str "a", .table [(.str "b", .bool true)])] := rfl

/-- Claim C3: a bare value token spelling `False` can never surface as an
identifier token and a coerced boolean is never `False` (the guard
`isvalue is True and value == "True" or value == "False"` combined with
`bool(value)` on the non-empty text makes it the Python boolean `True`);
concretely `"[a]\nb=False\n"` parses to `{a: {b: True}}` and that value is
written back as the text `True`. -/
theorem C3_false_becomes_true :
    (∀ (ts : List TomlToken) (i n : Nat) (tok : PTok) (j : Nat),
        parseIdentifier true ts i n = .ok (tok, j) →
        tok ≠ PTok.identifier "False" ∧ tok ≠ PTok.bool false)
    ∧ parseTomlText "[a]\nb=False\n" 100 =
        .ok [(.str "a", .table [(.str "b", .bool true)])]
    ∧ writeValue (.bool true) = "True" := by
  refine ⟨?_, rfl, rfl⟩
  intro ts i n tok j h
  match n with
  | 0 => simp [parseIdentifier] at h
  | n + 1 =>
    rw [parseIdentifier] at h
    rcases hscan : scanIdent ts i n with e | e <;> rw [hscan] at h
    · simp [exceptBindErr] at h
    simp only [exceptBindOk] at h
    rcases hnx : nextTok ts e with e2 | p <;> rw [hnx] at h
    · simp [exceptBindErr] at h
    simp only [exceptBindOk, exceptPure, Except.ok.injEq, Prod.mk.injEq] at h
    obtain ⟨htok, -⟩ := h
    subst htok
    split
    · rename_i hcond
      constructor
      · simp
      · rcases hcond with ⟨-, hv⟩ | hv <;> simp [hv]
    · rename_i hcond
      push_neg at hcond
      constructor
      · simp [hcond.2]
      · simp

/-- Claim C3 witness: a concrete successful `_parse_identifier` run on the
bare word `False` (in `"b=False\n"`), instantiating the universal part. -/
theorem C3_witness :
    PTok.bool true ≠ PTok.identifier "False" ∧ PTok.bool true ≠ PTok.bool false :=
  C3_false_becomes_true.1 (tokenize ["b=False\n"]) 2 10 (PTok.bool true) 7 rfl

/-- Claim C4 (counterexample): a `-` in a key inside an inline table is NOT
rewritten to `_`: `env-name` survives verbatim inside `{...}`. -/
theorem C4_counterexample :
    parseTomlText "[a]\nb=\x7benv-name=\"x\"\x7d\n" 100 =
      .ok [(.str "a", .table [(.str "b", .table [(.str "env-name", .str "x")])])]
    ∧ PyKey.str "env-name" ≠ PyKey.str "env_name" := ⟨rfl, by simp⟩

/-- Claim C4 (amended): only keys of section-level key-value lines have `-`
rewritten to `_` (in `TomlParser.parse`); keys inside inline `{...}` tables
are inserted verbatim by the DICT branch of `_parse_value`, so `env-name`
materializes as `env_name` at section level but stays `env-name` inline. -/
theorem C4_amended :
    parseTomlText "[a]\nenv-name=\"x\"\n" 100 =
      .ok [(.str "a", .table [(.str "env_name", .str "x")])]
    ∧ parseTomlText "[a]\nb=\x7benv-name=\"x\"\x7d\n" 100 =
      .ok [(.str "a", .table [(.str "b", .table [(.str "env-name", .str "x")])])] :=
  ⟨rfl, rfl⟩

/-- Claim C9: parsing `"[a]\nb=[\x7bx=\"1\"\x7d, \"y\"]\n"` yields
`{a: {b: [{x: "1"}, "y"]}}`: lists may contain inline tables and strings,
nested, in source order. -/
theorem C9_nested_structures :
    parseTomlText "[a]\nb=[\x7bx=\"1\"\x7d, \"y\"]\n" 100 =
      .ok [(.str "a", .table [(.str "b",
        .list [.table [(.str "x", .str "1")], .str "y"])])] := rfl

/-- Claim C10: `tokenize` yields, for each line not starting with `#`, exactly
one token per character of that line (via `classifyChar`) in file order, no
tokens at all for lines starting with `#`, and the per-line tokens are
followed by exactly one appended EOF token (no EOF token arises from any
character). -/
theorem C10_tokenize_contract (lines : List String) :
    tokenize lines =
      (lines.flatMap
        (fun l => if startsWithHash l then [] else l.data.map classifyChar))
        ++ [⟨.eof, ""⟩]
    ∧ ∀ t ∈ lines.flatMap
        (fun l => if startsWithHash l then [] else l.data.map classifyChar),
        t.kind ≠ .eof := by
  constructor
  · unfold tokenize
    rw [tokenizeFold_eq]
    simp
  · intro t ht
    rw [List.mem_flatMap] at ht
    obtain ⟨l, hl, hmem⟩ := ht
    split at hmem
    · simp at hmem
    · rw [List.mem_map] at hmem
      obtain ⟨c, hc, rfl⟩ := hmem
      exact classifyChar_kind_ne_eof c

/-- Claim C8: `TomlWriter.write` fails with the type error
`Value of a section must be a DotDict` whenever some top-level value of the
document is not a table (and a value required to be an inline table is by
construction a table, so no further type error can arise). -/
theorem C8_writer_type_error (d : Document)
    (h : ∃ p ∈ d, isTableV p.2 = false) :
    writeToml d = .error "Value of a section must be a DotDict" := by
  induction d with
  | nil => simp at h
  | cons hd tl ih =>
    obtain ⟨k, v⟩ := hd
    cases v with
    | table t =>
      have htl : ∃ p ∈ tl, isTableV p.2 = false := by
        obtain ⟨p, hp, hpf⟩ := h
        rcases List.mem_cons.mp hp with heq | hptl
        · subst heq
          simp [isTableV] at hpf
        · exact ⟨p, hptl, hpf⟩
      have hrec := ih htl
      unfold writeToml at hrec ⊢
      rw [writeData, hrec]
      rfl
    | str s => rfl
    | bool b => rfl
    | list vs => rfl

/-- Claim C8 witness: writing a document with a non-table top-level value. -/
theorem C8_witness :
    writeToml [(.str "a", .str "x")] = .error "Value of a section must be a DotDict" :=
  C8_writer_type_error _ ⟨(.str "a", .str "x"), by simp, rfl⟩

/-- Claim C7 (counterexample): after reading `doc.project.dependencies` on an
empty document, `project` is NOT mapped to an empty table: through the
aliasing of the returned table, the second access leaves
`project: {dependencies: {}}` behind. -/
theorem C7_counterexample :
    dotDictGetattrChain [] "project" "dependencies" =
      .ok (.table [], [(.str "project", .table [(.str "dependencies", .table [])])])
    ∧ Value.table [(.str "dependencies", .table [])] ≠ .table [] := ⟨rfl, by simp⟩

/-- Claim C7 (amended): reading `doc.project.dependencies` on a document
without `project` returns an empty table-like value, and as a side effect of
the read leaves `project` inserted, mapped to a table containing
`dependencies: {}` (not to an empty table: the first auto-vivified table is
aliased and mutated by the second access). -/
theorem C7_amended (d : Document) (h : dlookup d (.str "project") = none) :
    dotDictGetattrChain d "project" "dependencies" =
      .ok (.table [],
        d ++ [(.str "project", .table [(.str "dependencies", .table [])])]) := by
  unfold dotDictGetattrChain
  rw [dotDictGetattr_of_none d _ h]
  have hinner : dotDictGetattr [] "dependencies" =
      (.table [], [(.str "dependencies", .table [])]) := rfl
  simp only [hinner]
  have hmap2 : d.map (fun p => if p.1 = PyKey.str "project"
      then (p.1, Value.table [(PyKey.str "dependencies", Value.table [])]) else p) = d := by
    have hpt : ∀ p ∈ d, (if p.1 = PyKey.str "project"
        then (p.1, Value.table [(PyKey.str "dependencies", Value.table [])]) else p) = id p := by
      intro p hp
      have hne := dlookup_none_not_mem d _ h p hp
      have hcond : ¬(p.1 = PyKey.str "project") := by
        intro heq
        rw [heq] at hne
        simp at hne
      rw [if_neg hcond]
      rfl
    rw [List.map_congr_left hpt, List.map_id]
  simp [List.map_append, hmap2]

/-- Claim C7 witness: the amended statement applied to a concrete one-entry
document lacking `project`. -/
theorem C7_witness :
    dotDictGetattrChain [(.str "z", .bool true)] "project" "dependencies" =
      .ok (.table [],
        [(.str "z", .bool true),
         (.str "project", .table [(.str "dependencies", .table [])])]) :=
  C7_amended [(.str "z", .bool true)] rfl

/-- Claim C6 (counterexample): a key-value line before any section header
parses successfully and leaves a non-table entry at the top level of the
resulting document. -/
theorem C6_counterexample :
    parseTomlText "b=\"c\"\n" 100 = .ok [(.str "b", .str "c")]
    ∧ isTableV (Value.str "c") = false := ⟨rfl, rfl⟩

/-- Claim C6 (amended): if the parsed top-level token list is empty or starts
with a section header (so no key-value precedes the first section), then every
top-level entry of the resulting document is a table; a key-value before any
section silently inserts its raw value at top level. -/
theorem C6_amended (rtoks : List PTok) (result : Document)
    (hhead : rtoks = [] ∨ ∃ s rest, rtoks = PTok.sect s :: rest)
    (hok : buildLoop rtoks [] none = .ok result) : topAllTables result := by
  rcases hhead with rfl | ⟨s, rest, rfl⟩
  · simp [buildLoop] at hok
    intro p hp
    rw [hok] at hp
    simp at hp
  · rw [buildLoop] at hok
    refine buildLoop_tables rest _ _ _ _ ?_ hok
    intro p hp
    simp [dictInsert] at hp
    simp [hp, isTableV]

/-- Claim C6 witness: the amended statement applied to a concrete token list
starting with a section header. -/
theorem C6_witness : topAllTables [(PyKey.str "a", Value.table [])] :=
  C6_amended [PTok.sect "a"] _ (Or.inr ⟨"a", [], rfl⟩) rfl


theorem c5_listLoop12 : ∀ (n : Nat) (vs : List PTok),
    listLoop c5toks 12 vs n = .error .outOfFuel := by
  intro n
  induction n with
  | zero => intro vs; rfl
  | succ n ih =>
    intro vs
    rcases n with _|_|_|m
    · rfl
    · rfl
    · rfl
    · have hstep : listLoop c5toks 12 vs (m + 3 + 1) =
          listLoop c5toks 12 (vs ++ [PTok.eof]) (m + 3) := rfl
      rw [hstep]
      exact ih _

theorem c5_listLoop10 : ∀ (n : Nat) (vs : List PTok),
    listLoop c5toks 10 vs n = .error .outOfFuel := by
  intro n vs
  rcases n with _|_|_|_|m
  · rfl
  · rfl
  · rfl
  · rfl
  · show listLoop c5toks 10 vs (m + 4) = .error .outOfFuel
    have hstep : listLoop c5toks 10 vs (m + 4) =
        listLoop c5toks 12 (vs ++ [PTok.identifier "2"]) (m + 3) := rfl
    rw [hstep]
    exact c5_listLoop12 _ _

theorem c5_listLoop7 : ∀ (n : Nat) (vs : List PTok),
    listLoop c5toks 7 vs n = .error .outOfFuel := by
  intro n vs
  rcases n with _|_|_|_|m
  · rfl
  · rfl
  · rfl
  · rfl
  · show listLoop c5toks 7 vs (m + 4) = .error .outOfFuel
    have hstep : listLoop c5toks 7 vs (m + 4) =
        listLoop c5toks 10 (vs ++ [PTok.identifier "1"]) (m + 3) := rfl
    rw [hstep]
    exact c5_listLoop10 _ _

theorem c5_parseList6 : ∀ n : Nat, parseList c5toks 6 n = .error .outOfFuel := by
  intro n
  rcases n with _|_|_|m
  · rfl
  · rfl
  · rfl
  · show parseList c5toks 6 (m + 3) = .error .outOfFuel
    have hl := c5_listLoop7 (m + 2) []
    simp [parseList, hl, exceptBindOk, exceptBindErr,
      show nextTok c5toks 6 = .ok (⟨.char, "1"⟩, 7) from rfl,
      show skipWhitespace c5toks 7 (m + 2) = .ok 7 from rfl]

theorem c5_parseToken6 : ∀ n : Nat, parseToken true c5toks 6 n = .error .outOfFuel := by
  intro n
  rcases n with _|_|_|m
  · rfl
  · rfl
  · rfl
  · show parseToken true c5toks 6 (m + 3) = .error .outOfFuel
    have hstep : parseToken true c5toks 6 (m + 3) = parseList c5toks 6 (m + 2) := rfl
    rw [hstep]
    exact c5_parseList6 _

theorem c5_parseKeyValue4 : ∀ n : Nat, parseKeyValue c5toks 4 n = .error .outOfFuel := by
  intro n
  rcases n with _|_|_|m
  · rfl
  · rfl
  · rfl
  · show parseKeyValue c5toks 4 (m + 3) = .error .outOfFuel
    have hp := c5_parseToken6 (m + 2)
    simp [parseKeyValue, hp, exceptBindOk, exceptBindErr,
      show parseIdentifier false c5toks 4 (m + 2) = .ok (.identifier "b", 5) from rfl,
      show skipWhitespace c5toks 5 (m + 2) = .ok 5 from rfl,
      show currentTok c5toks 5 = .ok ⟨.equal, "="⟩ from rfl,
      show nextTok c5toks 5 = .ok (⟨.lbracket, "["⟩, 6) from rfl]

theorem c5_parseToken3 : ∀ n : Nat, parseToken false c5toks 3 n = .error .outOfFuel := by
  intro n
  rcases n with _|_|_|_|m
  · rfl
  · rfl
  · rfl
  · rfl
  · show parseToken false c5toks 3 (m + 4) = .error .outOfFuel
    have hstep : parseToken false c5toks 3 (m + 4) = parseKeyValue c5toks 4 (m + 3) := rfl
    rw [hstep]
    exact c5_parseKeyValue4 _

theorem c5_innerLoop3 : ∀ (n : Nat) (acc : List PTok),
    innerLoop c5toks 3 acc n = .error .outOfFuel := by
  intro n acc
  rcases n with _|m
  · rfl
  · have hp := c5_parseToken3 m
    have hlen : c5toks.length = 13 := rfl
    simp [innerLoop, hlen, hp, exceptBindErr]

theorem c5_innerLoop0 : ∀ n : Nat, innerLoop c5toks 0 [] n = .error .outOfFuel := by
  intro n
  rcases n with _|_|_|_|m
  · rfl
  · rfl
  · rfl
  · rfl
  · show innerLoop c5toks 0 [] (m + 4) = .error .outOfFuel
    have hstep : innerLoop c5toks 0 [] (m + 4) =
        innerLoop c5toks 3 [PTok.sect "a"] (m + 3) := rfl
    rw [hstep]
    exact c5_innerLoop3 _ _

/-- Claim C5 (code bug): on the unterminated-list input `"[a]\nb=[1, 2\n"`
the parser does not fail with `Expected right bracket`: the while-loop of
`_parse_list` keeps appending EOF tokens without advancing (its condition is
the same test as the post-loop check, so the raise is unreachable here) and
the parse never terminates, modelled as fuel exhaustion for every fuel. -/
theorem C5_diverges : ∀ fuel : Nat,
    parseTomlText "[a]\nb=[1, 2\n" fuel = .error .outOfFuel := by
  intro fuel
  show parseToml c5toks fuel = .error .outOfFuel
  have hi := c5_innerLoop0 fuel
  have hlen : c5toks.length = 13 := rfl
  simp [parseToml, parseInner, hlen, hi, exceptBindErr, exceptBindOk]



theorem currentTok_eq {ts : List TomlToken} {i : Nat} {t : TomlToken}
    (h : ts.get? i = some t) : currentTok ts i = .ok t := by
  unfold currentTok
  rw [h]

theorem nextTok_eq {ts : List TomlToken} {i : Nat} {t : TomlToken}
    (h : ts.get? (i + 1) = some t) : nextTok ts i = .ok (t, i + 1) := by
  unfold nextTok
  rw [h]

theorem peekTok_eq {ts : List TomlToken} {i : Nat} {t : TomlToken}
    (h : ts.get? (i + 1) = some t) : peekTok ts i = .ok t := by
  unfold peekTok
  exact currentTok_eq h

theorem SegAt_nil (ts : List TomlToken) (i : Nat) : SegAt ts i [] := by
  intro k hk
  simp at hk

theorem SegAt_cons {ts : List TomlToken} {i : Nat} {t : TomlToken}
    {rest : List TomlToken} (h : SegAt ts i (t :: rest)) :
    ts.get? i = some t ∧ SegAt ts (i + 1) rest := by
  constructor
  · have := h 0 (by simp)
    simpa using this
  · intro k hk
    have := h (k + 1) (by simp; omega)
    rw [show i + 1 + k = i + (k + 1) from by omega]
    simpa using this

theorem SegAt_append {ts : List TomlToken} {i : Nat} {a b : List TomlToken}
    (h : SegAt ts i (a ++ b)) : SegAt ts i a ∧ SegAt ts (i + a.length) b := by
  constructor
  · intro k hk
    have := h k (by simp; omega)
    rw [this, List.get?_append hk]
  · intro k hk
    have := h (a.length + k) (by simp; omega)
    rw [show i + a.length + k = i + (a.length + k) from by omega, this,
      List.get?_append_right (by omega)]
    congr 1
    omega

theorem SegAt_get {ts : List TomlToken} {i : Nat} {seg : List TomlToken}
    (h : SegAt ts i seg) {k : Nat} {t : TomlToken} (hk : seg.get? k = some t) :
    ts.get? (i + k) = some t := by
  have hlt : k < seg.length := (List.get?_eq_some.mp hk).1
  rw [h k hlt, hk]

theorem sliceToks_of_SegAt {seg : List TomlToken} :
    ∀ {ts : List TomlToken} {i : Nat}, SegAt ts i seg →
      sliceToks ts i (i + seg.length) = seg := by
  induction seg with
  | nil =>
    intro ts i _
    unfold sliceToks
    simp
  | cons t rest ih =>
    intro ts i h
    obtain ⟨h0, h1⟩ := SegAt_cons h
    obtain ⟨hlt, hget⟩ := List.get?_eq_some.mp h0
    unfold sliceToks
    have harith : i + (t :: rest).length - i = rest.length + 1 := by simp
    rw [harith, List.drop_eq_getElem_cons hlt, List.take_succ_cons]
    have h2 := ih h1
    unfold sliceToks at h2
    have harith2 : i + 1 + rest.length - (i + 1) = rest.length := by omega
    rw [harith2] at h2
    rw [h2, show ts[i] = t from hget]


theorem classifyChar_value (c : Char) : (classifyChar c).value = String.mk [c] := by
  unfold classifyChar
  simp only [apply_ite TomlToken.value]
  simp only [ite_self]

theorem joinVals_charToks (s : String) : joinVals (charToks s) = s := by
  unfold joinVals charToks
  have : ∀ cs : List Char,
      (List.map classifyChar cs).flatMap (fun t => t.value.data) = cs := by
    intro cs
    induction cs with
    | nil => rfl
    | cons c rest ih =>
      rw [List.map_cons, List.flatMap_cons, ih, classifyChar_value]
      rfl
  rw [this]

theorem charToks_append (a b : String) :
    charToks (a ++ b) = charToks a ++ charToks b := by
  unfold charToks
  rw [String.data_append, List.map_append]

theorem charToks_length (s : String) : (charToks s).length = s.data.length := by
  unfold charToks
  rw [List.length_map]

theorem kind_char_not_ws {t : TomlToken} (h : t.kind = .char) : isWsTok t = false := by
  unfold isWsTok
  rw [h]
  rfl

theorem kind_not_ws {t : TomlToken} {k : TokKind} (h : t.kind = k)
    (h2 : k ≠ .space) (h3 : k ≠ .lf) (h4 : k ≠ .cr) : isWsTok t = false := by
  unfold isWsTok
  rw [h]
  simp [h2, h3, h4]

theorem goodStr_not_quote {s : String} (hs : goodStr s) :
    ∀ u ∈ charToks s, (u.kind == TokKind.quote) = false := by
  intro u hu
  unfold charToks at hu
  rw [List.mem_map] at hu
  obtain ⟨c, hc, rfl⟩ := hu
  obtain ⟨hc1, hc2, -⟩ := hs c hc
  have hnq : ¬(c = '"' ∨ c = '\'') := by
    rintro (h | h)
    · exact hc1 h
    · exact hc2 h
  rw [beq_eq_false_iff_ne]
  unfold classifyChar
  rw [if_neg hnq]
  simp only [apply_ite TomlToken.kind]
  repeat' apply iteKindNe
  all_goals decide


theorem skipWsLoop_ok {ts : List TomlToken} {ws : List TomlToken}
    (hws : ∀ u ∈ ws, isWsTok u = true) :
    ∀ {i : Nat} {t : TomlToken}, SegAt ts i ws →
      ts.get? (i + ws.length) = some t → isWsTok t = false →
      ∀ m, ws.length + 1 ≤ m → skipWsLoop ts i m = .ok (i + ws.length) := by
  induction ws with
  | nil =>
    intro i t hseg ht htf m hm
    obtain ⟨k, rfl⟩ : ∃ k, m = k + 1 := ⟨m - 1, by omega⟩
    rw [skipWsLoop]
    rw [currentTok_eq (by simpa using ht)]
    simp [exceptBindOk, htf, exceptPure]
  | cons u ws ih =>
    intro i t hseg ht htf m hm
    obtain ⟨k, rfl⟩ : ∃ k, m = k + 1 := ⟨m - 1, by omega⟩
    obtain ⟨h0, h1⟩ := SegAt_cons hseg
    have ht2 : ts.get? (i + 1 + ws.length) = some t := by
      rw [show i + 1 + ws.length = i + (u :: ws).length from by simp; omega]
      exact ht
    have hnext : ∃ w, ts.get? (i + 1) = some w := by
      cases hws2 : ws with
      | nil =>
        refine ⟨t, ?_⟩
        rw [hws2] at ht2
        simpa using ht2
      | cons w ws2 =>
        rw [hws2] at h1
        exact ⟨w, (SegAt_cons h1).1⟩
    obtain ⟨w, hw⟩ := hnext
    have hm2 : ws.length + 1 ≤ k := by
      simp only [List.length_cons] at hm
      omega
    have hrec := ih (fun u2 hu2 => hws u2 (List.mem_cons_of_mem u hu2)) h1 ht2 htf k hm2
    rw [skipWsLoop, currentTok_eq h0]
    simp only [exceptBindOk, hws u (List.mem_cons_self u ws), if_true, nextTok_eq hw,
      hrec]
    rw [show i + (u :: ws).length = i + 1 + ws.length from by simp; omega]


theorem data_nil_iff {s : String} : s.data = [] ↔ s = "" := by
  constructor
  · intro h
    cases s
    exact congrArg String.mk h
  · intro h
    rw [h]

theorem isWsTok_parts {t : TomlToken} (htf : isWsTok t = false) :
    t.kind ≠ TokKind.space ∧ t.kind ≠ TokKind.lf ∧ t.kind ≠ TokKind.cr := by
  unfold isWsTok at htf
  simp only [Bool.or_eq_false_iff, beq_eq_false_iff_ne] at htf
  exact ⟨htf.1.1, htf.1.2, htf.2⟩

theorem skipWhitespace_ok {ts : List TomlToken} {ws : List TomlToken}
    (hws : ∀ u ∈ ws, isWsTok u = true) {i : Nat} {t : TomlToken}
    (hseg : SegAt ts i ws) (ht : ts.get? (i + ws.length) = some t)
    (htf : isWsTok t = false) :
    ∀ m, ws.length + 2 ≤ m → skipWhitespace ts i m = .ok (i + ws.length) := by
  intro m hm
  obtain ⟨k, rfl⟩ : ∃ k, m = k + 1 := ⟨m - 1, by omega⟩
  have hloop := skipWsLoop_ok hws hseg ht htf k (by omega)
  obtain ⟨-, hlf, hcr⟩ := isWsTok_parts htf
  rw [skipWhitespace]
  simp [hloop, exceptBindOk, currentTok_eq ht, hlf, hcr, exceptPure]

theorem scanString_ok {ts : List TomlToken} {content : List TomlToken}
    (hq : ∀ u ∈ content, u.kind ≠ TokKind.quote) :
    ∀ {i : Nat} {q : TomlToken}, SegAt ts i content →
      ts.get? (i + content.length) = some q → q.kind = TokKind.quote →
      ∀ m, content.length + 1 ≤ m → scanString ts i m = .ok (i + content.length) := by
  induction content with
  | nil =>
    intro i q hseg hq2 hqk m hm
    obtain ⟨k, rfl⟩ : ∃ k, m = k + 1 := ⟨m - 1, by omega⟩
    rw [scanString, currentTok_eq (by simpa using hq2)]
    simp [exceptBindOk, hqk, exceptPure]
  | cons u rest ih =>
    intro i q hseg hq2 hqk m hm
    obtain ⟨k, rfl⟩ : ∃ k, m = k + 1 := ⟨m - 1, by omega⟩
    obtain ⟨h0, h1⟩ := SegAt_cons hseg
    have hq3 : ts.get? (i + 1 + rest.length) = some q := by
      rw [show i + 1 + rest.length = i + (u :: rest).length from by
        simp only [List.length_cons]; omega]
      exact hq2
    have hnext : ∃ w, ts.get? (i + 1) = some w := by
      cases hrs : rest with
      | nil =>
        refine ⟨q, ?_⟩
        rw [hrs] at hq3
        simpa using hq3
      | cons w rest2 =>
        rw [hrs] at h1
        exact ⟨w, (SegAt_cons h1).1⟩
    obtain ⟨w, hw⟩ := hnext
    have hm2 : rest.length + 1 ≤ k := by
      simp only [List.length_cons] at hm
      omega
    have hrec := ih (fun u2 hu2 => hq u2 (List.mem_cons_of_mem u hu2)) h1 hq3 hqk k hm2
    rw [scanString, currentTok_eq h0]
    have hne := hq u (List.mem_cons_self u rest)
    simp only [exceptBindOk, nextTok_eq hw, hrec]
    rw [if_neg (by simpa using hne)]
    rw [show i + (u :: rest).length = i + 1 + rest.length from by
      simp only [List.length_cons]; omega]


theorem goodStr_toks_ne_quote {s : String} (hs : goodStr s) :
    ∀ u ∈ charToks s, u.kind ≠ TokKind.quote := by
  intro u hu
  exact beq_eq_false_iff_ne.mp (goodStr_not_quote hs u hu)

theorem parseString_ok {ts : List TomlToken} {s : String} (hs : goodStr s)
    {i : Nat} (hseg : SegAt ts (i + 1) (charToks s))
    {q : TomlToken} (hq : ts.get? (i + 1 + (charToks s).length) = some q)
    (hqk : q.kind = TokKind.quote)
    {t2 : TomlToken} (ht2 : ts.get? (i + 1 + (charToks s).length + 1) = some t2) :
    ∀ m, (charToks s).length + 2 ≤ m →
      parseString ts i m = .ok (.string s, i + 1 + (charToks s).length + 1) := by
  intro m hm
  obtain ⟨k, rfl⟩ : ∃ k, m = k + 1 := ⟨m - 1, by omega⟩
  have hscan := scanString_ok (goodStr_toks_ne_quote hs) hseg hq hqk k (by omega)
  have h1 : ∃ w, ts.get? (i + 1) = some w := by
    cases hcs : charToks s with
    | nil =>
      refine ⟨q, ?_⟩
      rw [hcs] at hq
      simpa using hq
    | cons w rest =>
      rw [hcs] at hseg
      exact ⟨w, (SegAt_cons hseg).1⟩
  obtain ⟨w, hw⟩ := h1
  have hslice := sliceToks_of_SegAt hseg
  rw [parseString]
  simp only [nextTok_eq hw, exceptBindOk, hscan, hslice, joinVals_charToks,
    nextTok_eq ht2, exceptPure]

theorem scanIdent_ok {ts : List TomlToken} {content : List TomlToken}
    (hchar : ∀ u ∈ content, u.kind = TokKind.char) :
    ∀ {i : Nat} {t : TomlToken}, content ≠ [] → SegAt ts i content →
      ts.get? (i + content.length) = some t → t.kind ≠ TokKind.char →
      ∀ m, content.length ≤ m → scanIdent ts i m = .ok (i + content.length - 1) := by
  induction content with
  | nil =>
    intro i t hne
    exact absurd rfl hne
  | cons u rest ih =>
    intro i t hne hseg ht htf m hm
    obtain ⟨k, rfl⟩ : ∃ k, m = k + 1 := ⟨m - 1, by simp at hm; omega⟩
    obtain ⟨h0, h1⟩ := SegAt_cons hseg
    cases hrs : rest with
    | nil =>
      have hpk : ts.get? (i + 1) = some t := by
        have h := ht
        rw [hrs] at h
        simpa using h
      rw [scanIdent, peekTok_eq hpk]
      simp only [exceptBindOk]
      rw [if_neg (by simpa using htf)]
      simp [exceptPure]
    | cons w rest2 =>
      have hw : ts.get? (i + 1) = some w := by
        rw [hrs] at h1
        exact (SegAt_cons h1).1
      have hwc : w.kind = TokKind.char := hchar w (by rw [hrs]; simp)
      have ht2 : ts.get? (i + 1 + rest.length) = some t := by
        rw [show i + 1 + rest.length = i + (u :: rest).length from by
          simp only [List.length_cons]; omega]
        exact ht
      have hm2 : rest.length ≤ k := by
        simp only [List.length_cons] at hm
        omega
      have hrec := ih (fun u2 hu2 => hchar u2 (List.mem_cons_of_mem u hu2))
        (by rw [hrs]; simp) h1 ht2 htf k hm2
      rw [scanIdent, peekTok_eq hw]
      simp only [exceptBindOk, hwc, beq_self_eq_true, if_true, nextTok_eq hw, hrec]
      simp only [Except.ok.injEq, List.length_cons]
      have hrl : rest.length = rest2.length + 1 := by
        rw [hrs]
        simp
      omega

theorem goodKey_nonempty {kstr : String} (hk : goodKeyStr kstr) :
    charToks kstr ≠ [] := by
  intro h
  apply hk.1
  apply data_nil_iff.mp
  have h2 : (charToks kstr).length = 0 := by rw [h]; rfl
  rw [charToks_length] at h2
  exact List.length_eq_zero.mp h2

theorem goodKey_chars {kstr : String} (hk : goodKeyStr kstr) :
    ∀ u ∈ charToks kstr, u.kind = TokKind.char := by
  intro u hu
  unfold charToks at hu
  rw [List.mem_map] at hu
  obtain ⟨c, hc, rfl⟩ := hu
  exact (hk.2.2 c hc).1

theorem parseIdentifier_false_ok {ts : List TomlToken} {kstr : String}
    (hk : goodKeyStr kstr) {i : Nat} {t : TomlToken}
    (hseg : SegAt ts i (charToks kstr))
    (ht : ts.get? (i + (charToks kstr).length) = some t)
    (htf : t.kind ≠ TokKind.char) :
    ∀ m, (charToks kstr).length + 1 ≤ m →
      parseIdentifier false ts i m =
        .ok (.identifier kstr, i + (charToks kstr).length) := by
  intro m hm
  obtain ⟨k, rfl⟩ : ∃ k, m = k + 1 := ⟨m - 1, by omega⟩
  have hlen1 : 1 ≤ (charToks kstr).length := by
    cases hcs : charToks kstr with
    | nil => exact absurd hcs (goodKey_nonempty hk)
    | cons a b => simp [hcs]
  have hscan := scanIdent_ok (goodKey_chars hk) (goodKey_nonempty hk) hseg ht htf k
    (by omega)
  have harith : i + (charToks kstr).length - 1 + 1 = i + (charToks kstr).length := by
    omega
  have hslice := sliceToks_of_SegAt hseg
  have ht2 : ts.get? (i + (charToks kstr).length - 1 + 1) = some t := by
    rw [harith]
    exact ht
  have hcond : ¬((false = true ∧ kstr = "True") ∨ kstr = "False") := by
    rintro (⟨hf, -⟩ | hf)
    · simp at hf
    · exact hk.2.1 hf
  rw [parseIdentifier]
  simp only [hscan, exceptBindOk, harith, hslice, joinVals_charToks,
    nextTok_eq ht2, exceptPure]
  rw [if_neg hcond]

theorem scanSection_ok {ts : List TomlToken} {content : List TomlToken}
    (hnr : ∀ u ∈ content, u.kind ≠ TokKind.rbracket) :
    ∀ {j : Nat} {rb : TomlToken}, SegAt ts (j + 1) content →
      ts.get? (j + 1 + content.length) = some rb → rb.kind = TokKind.rbracket →
      ∀ m, content.length + 1 ≤ m → scanSection ts j m = .ok (j + 1 + content.length) := by
  induction content with
  | nil =>
    intro j rb hseg hrb hrbk m hm
    obtain ⟨k, rfl⟩ : ∃ k, m = k + 1 := ⟨m - 1, by omega⟩
    rw [scanSection]
    simp only [nextTok_eq (show ts.get? (j + 1) = some rb from by simpa using hrb),
      exceptBindOk]
    simp [hrbk, exceptPure]
  | cons u rest ih =>
    intro j rb hseg hrb hrbk m hm
    obtain ⟨k, rfl⟩ : ∃ k, m = k + 1 := ⟨m - 1, by omega⟩
    obtain ⟨h0, h1⟩ := SegAt_cons hseg
    have hrb2 : ts.get? (j + 1 + 1 + rest.length) = some rb := by
      rw [show j + 1 + 1 + rest.length = j + 1 + (u :: rest).length from by
        simp only [List.length_cons]; omega]
      exact hrb
    have hm2 : rest.length + 1 ≤ k := by
      simp only [List.length_cons] at hm
      omega
    have hrec := ih (fun u2 hu2 => hnr u2 (List.mem_cons_of_mem u hu2)) h1 hrb2 hrbk k hm2
    rw [scanSection]
    simp only [nextTok_eq h0, exceptBindOk]
    rw [if_neg (by simpa using hnr u (List.mem_cons_self u rest))]
    simp only [hrec, Except.ok.injEq, List.length_cons]
    omega

theorem parseSection_ok {ts : List TomlToken} {name : String} (hk : goodKeyStr name)
    {i : Nat} (hseg : SegAt ts (i + 1) (charToks name))
    {rb : TomlToken} (hrb : ts.get? (i + 1 + (charToks name).length) = some rb)
    (hrbk : rb.kind = TokKind.rbracket)
    {t2 : TomlToken} (ht2 : ts.get? (i + 1 + (charToks name).length + 1) = some t2) :
    ∀ m, (charToks name).length + 2 ≤ m →
      parseSection ts i m = .ok (.sect name, i + 1 + (charToks name).length + 1) := by
  intro m hm
  obtain ⟨k, rfl⟩ : ∃ k, m = k + 1 := ⟨m - 1, by omega⟩
  cases hcs : charToks name with
  | nil => exact absurd hcs (goodKey_nonempty hk)
  | cons u tail =>
    have hseg2 := hseg
    rw [hcs] at hseg2
    obtain ⟨h0, h1⟩ := SegAt_cons hseg2
    have htailnr : ∀ u2 ∈ tail, u2.kind ≠ TokKind.rbracket := by
      intro u2 hu2
      have : u2.kind = TokKind.char := by
        apply goodKey_chars hk
        rw [hcs]
        exact List.mem_cons_of_mem u hu2
      rw [this]
      simp
    have hrb2 : ts.get? (i + 1 + 1 + tail.length) = some rb := by
      rw [show i + 1 + 1 + tail.length = i + 1 + (charToks name).length from by
        rw [hcs]; simp only [List.length_cons]; omega]
      exact hrb
    have hm2 : tail.length + 1 ≤ k := by
      rw [hcs] at hm
      simp only [List.length_cons] at hm
      omega
    have hscan := scanSection_ok htailnr h1 hrb2 hrbk k hm2
    have hescan : scanSection ts (i + 1) k = .ok (i + 1 + (charToks name).length) := by
      rw [hscan, hcs]
      simp only [List.length_cons, Except.ok.injEq]
      omega
    have hslice := sliceToks_of_SegAt hseg
    rw [parseSection]
    simp only [nextTok_eq h0, exceptBindOk, hescan, hslice, joinVals_charToks,
      nextTok_eq ht2, exceptPure]
    rw [hcs]

theorem SegAt_cons_intro {ts : List TomlToken} {i : Nat} {t : TomlToken}
    {rest : List TomlToken} (h0 : ts.get? i = some t) (h1 : SegAt ts (i + 1) rest) :
    SegAt ts i (t :: rest) := by
  intro k hk
  cases k with
  | zero => simpa using h0
  | succ k2 =>
    have hk2 : k2 < rest.length := by simp at hk; omega
    have := h1 k2 hk2
    rw [show i + (k2 + 1) = i + 1 + k2 from by omega]
    simpa using this

theorem SegAt_single {ts : List TomlToken} {i : Nat} {t : TomlToken}
    (h : ts.get? i = some t) : SegAt ts i [t] :=
  SegAt_cons_intro h (SegAt_nil ts (i + 1))

theorem skipWs0 {ts : List TomlToken} {i : Nat} {t : TomlToken}
    (ht : ts.get? i = some t) (htf : isWsTok t = false) :
    ∀ m, 2 ≤ m → skipWhitespace ts i m = .ok i := by
  intro m hm
  have h := @skipWhitespace_ok ts [] (by simp) i t (SegAt_nil ts i)
    (by simpa using ht) htf m (by simpa using hm)
  simpa using h

theorem skipWs1 {ts : List TomlToken} {i : Nat} {u t : TomlToken}
    (hu : ts.get? i = some u) (huw : isWsTok u = true)
    (ht : ts.get? (i + 1) = some t) (htf : isWsTok t = false) :
    ∀ m, 3 ≤ m → skipWhitespace ts i m = .ok (i + 1) := by
  intro m hm
  have h := @skipWhitespace_ok ts [u] (by simpa using huw) i t (SegAt_single hu)
    (by simpa using ht) htf m (by simpa using hm)
  simpa using h

theorem wv_str_eq (s : String) : writeValue (.str s) = "\"" ++ s ++ "\"" := rfl

theorem wv_list_eq (vs : List Value) :
    writeValue (.list vs) = "[" ++ writeListItems vs ++ "]" := rfl

theorem wv_table_eq (kvs : List (PyKey × Value)) :
    writeValue (.table kvs) = "\x7b" ++ writeDictItems kvs ++ "\x7d" := rfl

theorem charToks_writeStr (s : String) :
    charToks (writeValue (.str s)) =
      classifyChar '"' :: (charToks s ++ [classifyChar '"']) := by
  rw [wv_str_eq, charToks_append, charToks_append]
  rfl

theorem charToks_writeList (vs : List Value) :
    charToks (writeValue (.list vs)) =
      classifyChar '[' :: (charToks (writeListItems vs) ++ [classifyChar ']']) := by
  rw [wv_list_eq, charToks_append, charToks_append]
  rfl

theorem charToks_writeTable (kvs : List (PyKey × Value)) :
    charToks (writeValue (.table kvs)) =
      classifyChar '\x7b' :: (charToks (writeDictItems kvs) ++ [classifyChar '\x7d']) := by
  rw [wv_table_eq, charToks_append, charToks_append]
  rfl

theorem firstTokGood {v : Value} (hv : GoodValue v) :
    ∃ u rest, charToks (writeValue v) = u :: rest ∧
      (u.kind = TokKind.quote ∨ u.kind = TokKind.lbracket ∨ u.kind = TokKind.lcurly) := by
  cases hv with
  | str s hs =>
    exact ⟨classifyChar '"', charToks s ++ [classifyChar '"'], charToks_writeStr s,
      Or.inl rfl⟩
  | list vs hvs =>
    exact ⟨classifyChar '[', charToks (writeListItems vs) ++ [classifyChar ']'],
      charToks_writeList vs, Or.inr (Or.inl rfl)⟩
  | table kvs hks hvs hnd =>
    exact ⟨classifyChar '\x7b', charToks (writeDictItems kvs) ++ [classifyChar '\x7d'],
      charToks_writeTable kvs, Or.inr (Or.inr rfl)⟩

theorem goodFirst_not_ws {u : TomlToken}
    (h : u.kind = TokKind.quote ∨ u.kind = TokKind.lbracket ∨ u.kind = TokKind.lcurly) :
    isWsTok u = false := by
  rcases h with h | h | h <;> exact kind_not_ws h (by simp) (by simp) (by simp)

theorem goodFirst_ne_rbracket {u : TomlToken}
    (h : u.kind = TokKind.quote ∨ u.kind = TokKind.lbracket ∨ u.kind = TokKind.lcurly) :
    u.kind ≠ TokKind.rbracket := by
  rcases h with h | h | h <;> rw [h] <;> simp

theorem goodFirst_ne_rcurly {u : TomlToken}
    (h : u.kind = TokKind.quote ∨ u.kind = TokKind.lbracket ∨ u.kind = TokKind.lcurly) :
    u.kind ≠ TokKind.rcurly := by
  rcases h with h | h | h <;> rw [h] <;> simp

theorem writeListItems_cons2 (v w : Value) (rest : List Value) :
    writeListItems (v :: w :: rest) =
      writeValue v ++ ", " ++ writeListItems (w :: rest) := rfl

theorem writeDictItems_single (k : PyKey) (v : Value) :
    writeDictItems [(k, v)] = keyStr k ++ "=" ++ writeValue v := rfl

theorem writeDictItems_cons2 (k : PyKey) (v : Value) (q : PyKey × Value)
    (rest : List (PyKey × Value)) :
    writeDictItems ((k, v) :: q :: rest) =
      keyStr k ++ "=" ++ writeValue v ++ ", " ++ writeDictItems (q :: rest) := by
  cases q
  rfl

theorem listItems_first {vs : List Value} (h : ∀ v ∈ vs, GoodValue v) (hne : vs ≠ []) :
    ∃ u rest, charToks (writeListItems vs) = u :: rest ∧
      (u.kind = TokKind.quote ∨ u.kind = TokKind.lbracket ∨ u.kind = TokKind.lcurly) := by
  cases vs with
  | nil => exact absurd rfl hne
  | cons v vs2 =>
    obtain ⟨u, urest, hu, huk⟩ := firstTokGood (h v (List.mem_cons_self v vs2))
    cases vs2 with
    | nil =>
      exact ⟨u, urest, by rw [show writeListItems [v] = writeValue v from rfl, hu], huk⟩
    | cons w rest2 =>
      refine ⟨u, urest ++ charToks (", " ++ writeListItems (w :: rest2)), ?_, huk⟩
      rw [writeListItems_cons2, show writeValue v ++ ", " ++ writeListItems (w :: rest2)
        = writeValue v ++ (", " ++ writeListItems (w :: rest2)) from by
          rw [String.append_assoc], charToks_append, hu]
      rfl

theorem keyFirst_char {kstr : String} (hk : goodKeyStr kstr) :
    ∃ u rest, charToks kstr = u :: rest ∧ u.kind = TokKind.char := by
  cases hcs : charToks kstr with
  | nil => exact absurd hcs (goodKey_nonempty hk)
  | cons u rest =>
    refine ⟨u, rest, rfl, ?_⟩
    apply goodKey_chars hk
    rw [hcs]
    exact List.mem_cons_self u rest

theorem writeDictItems_decomp (k0 : PyKey) (v0 : Value)
    (rest : List (PyKey × Value)) :
    writeDictItems ((k0, v0) :: rest) =
      keyStr k0 ++ ("=" ++ (writeValue v0 ++
        (match rest with
         | [] => ""
         | q :: r => ", " ++ writeDictItems (q :: r)))) := by
  cases rest with
  | nil =>
    rw [writeDictItems_single]
    simp [String.append_assoc]
  | cons q r =>
    rw [writeDictItems_cons2 k0 v0 q r]
    simp [String.append_assoc]

theorem dictItems_first {k0 : PyKey} {v0 : Value} {rest : List (PyKey × Value)}
    {ks : String} (hk : k0 = PyKey.str ks) (hgk : goodKeyStr ks) :
    ∃ u tail, charToks (writeDictItems ((k0, v0) :: rest)) = u :: tail ∧
      u.kind = TokKind.char := by
  obtain ⟨u, tl, hu, huk⟩ := keyFirst_char hgk
  refine ⟨u, tl ++ charToks ("=" ++ (writeValue v0 ++
    (match rest with
     | [] => ""
     | q :: r => ", " ++ writeDictItems (q :: r)))), ?_, huk⟩
  rw [writeDictItems_decomp, charToks_append, hk]
  rw [show keyStr (PyKey.str ks) = ks from rfl, hu]
  rfl

set_option maxHeartbeats 1000000 in
mutual

theorem valueRT : ∀ (v : Value), GoodValue v → ∀ (ts : List TomlToken) (i : Nat)
    (t2 : TomlToken), SegAt ts i (charToks (writeValue v)) →
    ts.get? (i + (charToks (writeValue v)).length) = some t2 →
    ∃ n, ∀ m, n ≤ m → parseToken true ts i m =
      .ok (ptokOfValue v, i + (charToks (writeValue v)).length)
  | .str s, hv, ts, i, t2, hseg, hta => by
    have hs : goodStr s := by cases hv; assumption
    have hL : (charToks (writeValue (.str s))).length = (charToks s).length + 2 := by
      rw [charToks_writeStr]
      simp
    rw [charToks_writeStr] at hseg
    obtain ⟨hq0, hseg1⟩ := SegAt_cons hseg
    obtain ⟨h1, hseg2⟩ := SegAt_append hseg1
    have hq1 : ts.get? (i + 1 + (charToks s).length) = some (classifyChar '"') :=
      (SegAt_cons hseg2).1
    have hta2 : ts.get? (i + 1 + (charToks s).length + 1) = some t2 := by
      rw [show i + 1 + (charToks s).length + 1 = i + ((charToks s).length + 2) from by
        omega]
      rw [hL] at hta
      exact hta
    refine ⟨(charToks s).length + 5, ?_⟩
    intro m hm
    obtain ⟨m2, rfl⟩ : ∃ k, m = k + 1 := ⟨m - 1, by omega⟩
    have hws := skipWs0 hq0 (kind_not_ws (show (classifyChar '"').kind = TokKind.quote
      from rfl) (by simp) (by simp) (by simp)) m2 (by omega)
    have hps := parseString_ok hs h1 hq1 rfl hta2 m2 (by omega)
    rw [parseToken]
    simp only [hws, exceptBindOk, currentTok_eq hq0,
      show (classifyChar '"').kind = TokKind.quote from rfl, hps, hL]
    rw [show i + 1 + (charToks s).length + 1 = i + ((charToks s).length + 2) from by
      omega]
    rfl
  | .list vs, hv, ts, i, t2, hseg, hta => by
    have hvs : ∀ v ∈ vs, GoodValue v := by
      cases hv
      assumption
    have hL : (charToks (writeValue (.list vs))).length =
        (charToks (writeListItems vs)).length + 2 := by
      rw [charToks_writeList]
      simp
    rw [charToks_writeList] at hseg
    obtain ⟨hlb, hseg1⟩ := SegAt_cons hseg
    obtain ⟨hsegI, hsegRb⟩ := SegAt_append hseg1
    have hrb : ts.get? (i + 1 + (charToks (writeListItems vs)).length) =
        some (classifyChar ']') := (SegAt_cons hsegRb).1
    have hta2 : ts.get? (i + 1 + (charToks (writeListItems vs)).length + 1) =
        some t2 := by
      rw [hL] at hta
      rw [show i + 1 + (charToks (writeListItems vs)).length + 1 =
        i + ((charToks (writeListItems vs)).length + 2) from by omega]
      exact hta
    obtain ⟨n1, h1⟩ := listRT vs hvs ts (i + 1) [] (classifyChar ']') hsegI hrb rfl
    have hfirst : ∃ w, ts.get? (i + 1) = some w ∧ isWsTok w = false := by
      cases hvs0 : vs with
      | nil =>
        refine ⟨classifyChar ']', ?_, rfl⟩
        have hc := hrb
        rw [hvs0] at hc
        have hz : (charToks (writeListItems ([] : List Value))).length = 0 := rfl
        rw [hz] at hc
        simpa using hc
      | cons a b =>
        obtain ⟨u2, u2r, hu2, hu2k⟩ := listItems_first
          (by rw [hvs0] at hvs; exact hvs) (by simp)
        have hg : ts.get? (i + 1) = some u2 := by
          rw [hvs0, hu2] at hsegI
          exact (SegAt_cons hsegI).1
        exact ⟨u2, hg, goodFirst_not_ws hu2k⟩
    obtain ⟨w, hw, hwnws⟩ := hfirst
    refine ⟨n1 + 7, ?_⟩
    intro m hm
    obtain ⟨k, rfl⟩ : ∃ k, m = k + 1 := ⟨m - 1, by omega⟩
    rw [parseToken]
    have hws := skipWs0 hlb rfl k (by omega)
    simp only [hws, exceptBindOk, currentTok_eq hlb,
      show (classifyChar '[').kind = TokKind.lbracket from rfl, if_true]
    obtain ⟨k2, rfl⟩ : ∃ j, k = j + 1 := ⟨k - 1, by omega⟩
    rw [parseList]
    simp only [nextTok_eq hw, exceptBindOk]
    have hws2 := skipWs0 hw hwnws k2 (by omega)
    simp only [hws2, exceptBindOk, h1 k2 (by omega), currentTok_eq hrb,
      show (classifyChar ']').kind = TokKind.rbracket from rfl, beq_self_eq_true,
      if_true, nextTok_eq hta2, exceptPure]
    rw [hL]
    rw [show i + 1 + (charToks (writeListItems vs)).length + 1 =
      i + ((charToks (writeListItems vs)).length + 2) from by omega]
    simp [ptokOfValue]
  | .table kvs, hv, ts, i, t2, hseg, hta => by
    have hks : ∀ p ∈ kvs, ∃ s, p.1 = PyKey.str s ∧ goodKeyStr s := by
      cases hv
      assumption
    have hvs : ∀ p ∈ kvs, GoodValue p.2 := by
      cases hv
      assumption
    have hL : (charToks (writeValue (.table kvs))).length =
        (charToks (writeDictItems kvs)).length + 2 := by
      rw [charToks_writeTable]
      simp
    rw [charToks_writeTable] at hseg
    obtain ⟨hlc, hseg1⟩ := SegAt_cons hseg
    obtain ⟨hsegI, hsegRc⟩ := SegAt_append hseg1
    have hrc : ts.get? (i + 1 + (charToks (writeDictItems kvs)).length) =
        some (classifyChar '\x7d') := (SegAt_cons hsegRc).1
    have hta2 : ts.get? (i + 1 + (charToks (writeDictItems kvs)).length + 1) =
        some t2 := by
      rw [hL] at hta
      rw [show i + 1 + (charToks (writeDictItems kvs)).length + 1 =
        i + ((charToks (writeDictItems kvs)).length + 2) from by omega]
      exact hta
    obtain ⟨n1, h1⟩ := dictRT kvs hks hvs ts (i + 1) [] (classifyChar '\x7d')
      hsegI hrc rfl
    have hfirst : ∃ w, ts.get? (i + 1) = some w ∧ isWsTok w = false := by
      cases hvs0 : kvs with
      | nil =>
        refine ⟨classifyChar '\x7d', ?_, rfl⟩
        have hc := hrc
        rw [hvs0] at hc
        have hz : (charToks (writeDictItems ([] : List (PyKey × Value)))).length = 0 :=
          rfl
        rw [hz] at hc
        simpa using hc
      | cons p b =>
        obtain ⟨k1, v1⟩ := p
        obtain ⟨ks1, hk1eq, hgk1⟩ := hks (k1, v1) (by rw [hvs0]; simp)
        obtain ⟨u2, u2r, hu2, hu2k⟩ := dictItems_first hk1eq hgk1
        have hg : ts.get? (i + 1) = some u2 := by
          rw [hvs0, hu2] at hsegI
          exact (SegAt_cons hsegI).1
        exact ⟨u2, hg, kind_char_not_ws hu2k⟩
    obtain ⟨w, hw, hwnws⟩ := hfirst
    refine ⟨n1 + 7, ?_⟩
    intro m hm
    obtain ⟨k, rfl⟩ : ∃ k, m = k + 1 := ⟨m - 1, by omega⟩
    rw [parseToken]
    have hws := skipWs0 hlc rfl k (by omega)
    simp only [hws, exceptBindOk, currentTok_eq hlc,
      show (classifyChar '\x7b').kind = TokKind.lcurly from rfl]
    obtain ⟨k2, rfl⟩ : ∃ j, k = j + 1 := ⟨k - 1, by omega⟩
    rw [parseDict]
    simp only [nextTok_eq hw, exceptBindOk]
    have hws2 := skipWs0 hw hwnws k2 (by omega)
    simp only [hws2, exceptBindOk, h1 k2 (by omega), currentTok_eq hrc,
      show (classifyChar '\x7d').kind = TokKind.rcurly from rfl, beq_self_eq_true,
      if_true, nextTok_eq hta2, exceptPure]
    rw [hL]
    rw [show i + 1 + (charToks (writeDictItems kvs)).length + 1 =
      i + ((charToks (writeDictItems kvs)).length + 2) from by omega]
    simp [ptokOfValue]
  | .bool b, hv, ts, i, t2, hseg, hta => by
    exact absurd hv (by intro h; cases h)
termination_by v hv ts i t2 hseg hta => sizeOf v

theorem listRT : ∀ (vs : List Value), (∀ v ∈ vs, GoodValue v) →
    ∀ (ts : List TomlToken) (i : Nat) (acc : List PTok) (rb : TomlToken),
    SegAt ts i (charToks (writeListItems vs)) →
    ts.get? (i + (charToks (writeListItems vs)).length) = some rb →
    rb.kind = TokKind.rbracket →
    ∃ n, ∀ m, n ≤ m → listLoop ts i acc m =
      .ok (acc ++ ptokOfList vs, i + (charToks (writeListItems vs)).length)
  | [], hvs, ts, i, acc, rb, hseg, hrb, hrbk => by
    have h0 : (charToks (writeListItems ([] : List Value))).length = 0 := rfl
    rw [h0] at hrb
    have hrb0 : ts.get? i = some rb := by simpa using hrb
    refine ⟨1, ?_⟩
    intro m hm
    obtain ⟨k, rfl⟩ : ∃ k, m = k + 1 := ⟨m - 1, by omega⟩
    rw [listLoop]
    simp only [currentTok_eq hrb0, exceptBindOk, hrbk, beq_self_eq_true, if_true]
    simp [ptokOfList, h0, exceptPure]
  | [v], hvs, ts, i, acc, rb, hseg, hrb, hrbk => by
    have hgv : GoodValue v := hvs v (List.mem_cons_self v [])
    have hitems : writeListItems [v] = writeValue v := rfl
    rw [hitems] at hseg hrb
    obtain ⟨u, urest, hu, huk⟩ := firstTokGood hgv
    have hu0 : ts.get? i = some u := by
      rw [hu] at hseg
      exact (SegAt_cons hseg).1
    obtain ⟨n1, h1⟩ := valueRT v hgv ts i rb hseg hrb
    obtain ⟨n2, h2⟩ := listRT [] (by intro x hx; simp at hx) ts
      (i + (charToks (writeValue v)).length) (acc ++ [ptokOfValue v]) rb
      (SegAt_nil _ _) (by simpa using hrb) hrbk
    refine ⟨n1 + n2 + 5, ?_⟩
    intro m hm
    obtain ⟨k, rfl⟩ : ∃ k, m = k + 1 := ⟨m - 1, by omega⟩
    rw [listLoop]
    simp only [currentTok_eq hu0, exceptBindOk]
    rw [if_neg (by simpa using goodFirst_ne_rbracket huk)]
    have hrbnws : isWsTok rb = false := kind_not_ws hrbk (by simp) (by simp) (by simp)
    have hws := skipWs0 hrb hrbnws k (by omega)
    simp only [h1 k (by omega), exceptBindOk, hws, currentTok_eq hrb]
    rw [if_neg (by rw [hrbk]; simp)]
    simp only [h2 k (by omega)]
    simp [ptokOfList, hitems, show charToks (writeListItems ([] : List Value)) = []
      from rfl, exceptPure]
  | v :: w :: rest, hvs, ts, i, acc, rb, hseg, hrb, hrbk => by
    have hgv : GoodValue v := hvs v (by simp)
    have hrest : ∀ x ∈ w :: rest, GoodValue x :=
      fun x hx => hvs x (List.mem_cons_of_mem v hx)
    have hw2 : writeListItems (v :: w :: rest) =
        writeValue v ++ (", " ++ writeListItems (w :: rest)) := by
      rw [writeListItems_cons2, String.append_assoc]
    have hcsp : charToks ", " = [classifyChar ',', classifyChar ' '] := rfl
    have hlen2 : ([classifyChar ',', classifyChar ' '] : List TomlToken).length = 2 := rfl
    rw [hw2, charToks_append, charToks_append, hcsp] at hseg hrb
    obtain ⟨hsegv, hseg1⟩ := SegAt_append hseg
    obtain ⟨hsegcs, hseg2⟩ := SegAt_append hseg1
    rw [hlen2] at hseg2
    obtain ⟨hcm, hsegsp⟩ := SegAt_cons hsegcs
    have hsp : ts.get? (i + (charToks (writeValue v)).length + 1) =
        some (classifyChar ' ') := by
      have := (SegAt_cons hsegsp).1
      exact this
    have hrb2 : ts.get? (i + (charToks (writeValue v)).length + 2 +
        (charToks (writeListItems (w :: rest))).length) = some rb := by
      rw [show i + (charToks (writeValue v)).length + 2 +
          (charToks (writeListItems (w :: rest))).length =
        i + (charToks (writeValue v) ++
          ([classifyChar ',', classifyChar ' '] ++
            charToks (writeListItems (w :: rest)))).length from by
        simp [List.length_append]
        omega]
      exact hrb
    obtain ⟨n1, h1⟩ := valueRT v hgv ts i (classifyChar ',') hsegv hcm
    obtain ⟨u2, u2rest, hu2, hu2k⟩ := listItems_first hrest (by simp)
    have hu2get : ts.get? (i + (charToks (writeValue v)).length + 2) = some u2 := by
      rw [hu2] at hseg2
      exact (SegAt_cons hseg2).1
    obtain ⟨n2, h2⟩ := listRT (w :: rest) hrest ts
      (i + (charToks (writeValue v)).length + 2) (acc ++ [ptokOfValue v]) rb
      hseg2 hrb2 hrbk
    refine ⟨n1 + n2 + 6, ?_⟩
    intro m hm
    obtain ⟨k, rfl⟩ : ∃ k, m = k + 1 := ⟨m - 1, by omega⟩
    rw [listLoop]
    obtain ⟨u, urest, hu, huk⟩ := firstTokGood hgv
    have hu0 : ts.get? i = some u := by
      rw [hu] at hsegv
      exact (SegAt_cons hsegv).1
    simp only [currentTok_eq hu0, exceptBindOk]
    rw [if_neg (by simpa using goodFirst_ne_rbracket huk)]
    have hcmnws : isWsTok (classifyChar ',') = false := rfl
    have hws0 := skipWs0 hcm hcmnws k (by omega)
    simp only [h1 k (by omega), exceptBindOk, hws0, currentTok_eq hcm]
    simp only [show (classifyChar ',').kind = TokKind.comma from rfl,
      beq_self_eq_true, if_true, nextTok_eq hsp, exceptBindOk]
    have hws1 := skipWs1 hsp rfl hu2get (goodFirst_not_ws hu2k) k (by omega)
    rw [show i + (charToks (writeValue v)).length + 1 + 1 =
      i + (charToks (writeValue v)).length + 2 from by omega] at hws1
    simp only [hws1, exceptBindOk, currentTok_eq hu2get]
    rw [if_neg (by simpa using goodFirst_ne_rbracket hu2k)]
    simp only [h2 k (by omega)]
    rw [hw2, charToks_append, charToks_append, hcsp]
    rw [show i + (charToks (writeValue v) ++
        ([classifyChar ',', classifyChar ' '] ++
          charToks (writeListItems (w :: rest)))).length =
      i + (charToks (writeValue v)).length + 2 +
        (charToks (writeListItems (w :: rest))).length from by
      simp [List.length_append]
      omega]
    simp [ptokOfList, List.append_assoc]
termination_by vs hvs ts i acc rb hseg hrb hrbk => sizeOf vs

theorem dictRT : ∀ (kvs : List (PyKey × Value)),
    (∀ p ∈ kvs, ∃ s, p.1 = PyKey.str s ∧ goodKeyStr s) →
    (∀ p ∈ kvs, GoodValue p.2) →
    ∀ (ts : List TomlToken) (i : Nat) (acc : List (PTok × PTok)) (rc : TomlToken),
    SegAt ts i (charToks (writeDictItems kvs)) →
    ts.get? (i + (charToks (writeDictItems kvs)).length) = some rc →
    rc.kind = TokKind.rcurly →
    ∃ n, ∀ m, n ≤ m → dictLoop ts i acc m =
      .ok (acc ++ ptokOfTable kvs, i + (charToks (writeDictItems kvs)).length)
  | [], hks, hvs, ts, i, acc, rc, hseg, hrc, hrck => by
    have h0 : (charToks (writeDictItems ([] : List (PyKey × Value)))).length = 0 := rfl
    rw [h0] at hrc
    have hrc0 : ts.get? i = some rc := by simpa using hrc
    refine ⟨1, ?_⟩
    intro m hm
    obtain ⟨k, rfl⟩ : ∃ k, m = k + 1 := ⟨m - 1, by omega⟩
    rw [dictLoop]
    simp only [currentTok_eq hrc0, exceptBindOk, hrck, beq_self_eq_true, if_true]
    simp [ptokOfTable, h0, exceptPure]
  | (k0, v0) :: [], hks, hvs, ts, i, acc, rc, hseg, hrc, hrck => by
    obtain ⟨ks, hk0eq, hgk⟩ := hks (k0, v0) (by simp)
    have hk0 : k0 = PyKey.str ks := hk0eq
    subst hk0
    have hgv : GoodValue v0 := hvs (PyKey.str ks, v0) (by simp)
    have hdec : writeDictItems [((PyKey.str ks), v0)] = ks ++ ("=" ++ writeValue v0) := by
      rw [writeDictItems_single]
      simp [String.append_assoc, keyStr]
    rw [hdec, charToks_append, charToks_append,
      show charToks "=" = [classifyChar '='] from rfl] at hseg hrc
    obtain ⟨hsegK, hseg1⟩ := SegAt_append hseg
    obtain ⟨hEq, hseg2⟩ := SegAt_cons hseg1
    simp only [List.append_eq, List.nil_append] at hseg2
    have hrcIdx : ts.get? (i + (charToks ks).length + 1 +
        (charToks (writeValue v0)).length) = some rc := by
      rw [show i + (charToks ks).length + 1 + (charToks (writeValue v0)).length =
        i + (charToks ks ++ ([classifyChar '='] ++ charToks (writeValue v0))).length
        from by simp [List.length_append]; omega]
      exact hrc
    obtain ⟨nV, hV⟩ := valueRT v0 hgv ts (i + (charToks ks).length + 1) rc hseg2 hrcIdx
    obtain ⟨nR, hR⟩ := dictRT [] (by simp) (by simp) ts
      (i + (charToks ks).length + 1 + (charToks (writeValue v0)).length)
      (acc ++ [(PTok.identifier ks, ptokOfValue v0)]) rc (SegAt_nil _ _)
      (by rw [show (charToks (writeDictItems ([] : List (PyKey × Value)))).length = 0
        from rfl]; simpa using hrcIdx) hrck
    obtain ⟨uk, ukr, huk, hukk⟩ := keyFirst_char hgk
    have hu0 : ts.get? i = some uk := by
      rw [huk] at hsegK
      exact (SegAt_cons hsegK).1
    obtain ⟨uv, uvr, huv, huvk⟩ := firstTokGood hgv
    have hv0get : ts.get? (i + (charToks ks).length + 1) = some uv := by
      rw [huv] at hseg2
      exact (SegAt_cons hseg2).1
    refine ⟨nV + nR + (charToks ks).length + 8, ?_⟩
    intro m hm
    obtain ⟨k, rfl⟩ : ∃ k, m = k + 1 := ⟨m - 1, by omega⟩
    rw [dictLoop]
    simp only [currentTok_eq hu0, exceptBindOk]
    rw [if_neg (by rw [hukk]; simp)]
    have hid := parseIdentifier_false_ok hgk hsegK hEq (by decide) k (by omega)
    simp only [hid, exceptBindOk]
    have hwsEq := skipWs0 hEq rfl k (by omega)
    simp only [hwsEq, exceptBindOk, currentTok_eq hEq,
      show (classifyChar '=').kind = TokKind.equal from rfl, beq_self_eq_true, if_true,
      nextTok_eq hv0get]
    simp only [hV k (by omega), exceptBindOk]
    have hrcnws : isWsTok rc = false := kind_not_ws hrck (by simp) (by simp) (by simp)
    have hwsV := skipWs0 hrcIdx hrcnws k (by omega)
    simp only [hwsV, exceptBindOk, currentTok_eq hrcIdx]
    rw [if_neg (by rw [hrck]; simp)]
    simp only [hR k (by omega)]
    rw [hdec, charToks_append, charToks_append,
      show charToks "=" = [classifyChar '='] from rfl]
    rw [show i + (charToks ks ++ ([classifyChar '='] ++ charToks (writeValue v0))).length =
      i + (charToks ks).length + 1 + (charToks (writeValue v0)).length from by
      simp [List.length_append]; omega]
    simp [ptokOfTable, keyStr,
      show (charToks (writeDictItems ([] : List (PyKey × Value)))).length = 0 from rfl]
  | (k0, v0) :: q1 :: rest2, hks, hvs, ts, i, acc, rc, hseg, hrc, hrck => by
    obtain ⟨ks, hk0eq, hgk⟩ := hks (k0, v0) (by simp)
    have hk0 : k0 = PyKey.str ks := hk0eq
    subst hk0
    have hgv : GoodValue v0 := hvs (PyKey.str ks, v0) (by simp)
    have hdec : writeDictItems ((PyKey.str ks, v0) :: q1 :: rest2) =
        ks ++ ("=" ++ (writeValue v0 ++ (", " ++ writeDictItems (q1 :: rest2)))) := by
      rw [writeDictItems_cons2]
      simp [String.append_assoc, keyStr]
    rw [hdec, charToks_append, charToks_append, charToks_append, charToks_append,
      show charToks "=" = [classifyChar '='] from rfl,
      show charToks ", " = [classifyChar ',', classifyChar ' '] from rfl] at hseg hrc
    obtain ⟨hsegK, hseg1⟩ := SegAt_append hseg
    obtain ⟨hEq, hseg2⟩ := SegAt_cons hseg1
    simp only [List.append_eq, List.nil_append] at hseg2
    obtain ⟨hsegV, hseg3⟩ := SegAt_append hseg2
    obtain ⟨hsegCS, hsegItems⟩ := SegAt_append hseg3
    rw [show ([classifyChar ',', classifyChar ' '] : List TomlToken).length = 2
      from rfl] at hsegItems
    obtain ⟨hcm, hsegSp⟩ := SegAt_cons hsegCS
    have hsp := (SegAt_cons hsegSp).1
    have hrest : ∀ p ∈ q1 :: rest2, ∃ s, p.1 = PyKey.str s ∧ goodKeyStr s :=
      fun p hp => hks p (List.mem_cons_of_mem _ hp)
    have hrestv : ∀ p ∈ q1 :: rest2, GoodValue p.2 :=
      fun p hp => hvs p (List.mem_cons_of_mem _ hp)
    have hrcIdx : ts.get? (i + (charToks ks).length + 1 +
        (charToks (writeValue v0)).length + 2 +
        (charToks (writeDictItems (q1 :: rest2))).length) = some rc := by
      rw [show i + (charToks ks).length + 1 + (charToks (writeValue v0)).length + 2 +
          (charToks (writeDictItems (q1 :: rest2))).length =
        i + (charToks ks ++ ([classifyChar '='] ++ (charToks (writeValue v0) ++
          ([classifyChar ',', classifyChar ' '] ++
            charToks (writeDictItems (q1 :: rest2)))))).length from by
        simp [List.length_append]; omega]
      exact hrc
    obtain ⟨nV, hV⟩ := valueRT v0 hgv ts (i + (charToks ks).length + 1)
      (classifyChar ',') hsegV hcm
    obtain ⟨nR, hR⟩ := dictRT (q1 :: rest2) hrest hrestv ts
      (i + (charToks ks).length + 1 + (charToks (writeValue v0)).length + 2)
      (acc ++ [(PTok.identifier ks, ptokOfValue v0)]) rc hsegItems hrcIdx hrck
    obtain ⟨uk, ukr, huk, hukk⟩ := keyFirst_char hgk
    have hu0 : ts.get? i = some uk := by
      rw [huk] at hsegK
      exact (SegAt_cons hsegK).1
    obtain ⟨uv, uvr, huv, huvk⟩ := firstTokGood hgv
    have hv0get : ts.get? (i + (charToks ks).length + 1) = some uv := by
      rw [huv] at hsegV
      exact (SegAt_cons hsegV).1
    obtain ⟨k1, v1⟩ := q1
    obtain ⟨ks2, hk2eq, hgk2⟩ := hrest (k1, v1) (by simp)
    obtain ⟨u3, u3r, hu3, hu3k⟩ := dictItems_first hk2eq hgk2
    have hu3get : ts.get? (i + (charToks ks).length + 1 +
        (charToks (writeValue v0)).length + 2) = some u3 := by
      rw [hu3] at hsegItems
      exact (SegAt_cons hsegItems).1
    refine ⟨nV + nR + (charToks ks).length + 9, ?_⟩
    intro m hm
    obtain ⟨k, rfl⟩ : ∃ k, m = k + 1 := ⟨m - 1, by omega⟩
    rw [dictLoop]
    simp only [currentTok_eq hu0, exceptBindOk]
    rw [if_neg (by rw [hukk]; simp)]
    have hid := parseIdentifier_false_ok hgk hsegK hEq (by decide) k (by omega)
    simp only [hid, exceptBindOk]
    have hwsEq := skipWs0 hEq rfl k (by omega)
    simp only [hwsEq, exceptBindOk, currentTok_eq hEq,
      show (classifyChar '=').kind = TokKind.equal from rfl, beq_self_eq_true, if_true,
      nextTok_eq hv0get]
    simp only [hV k (by omega), exceptBindOk]
    have hwsV := skipWs0 hcm rfl k (by omega)
    simp only [hwsV, exceptBindOk, currentTok_eq hcm,
      show (classifyChar ',').kind = TokKind.comma from rfl, beq_self_eq_true, if_true,
      nextTok_eq hsp]
    have hws1 := skipWs1 hsp rfl hu3get (kind_char_not_ws hu3k) k (by omega)
    rw [show i + (charToks ks).length + 1 + (charToks (writeValue v0)).length + 1 + 1 =
      i + (charToks ks).length + 1 + (charToks (writeValue v0)).length + 2 from by
      omega] at hws1
    simp only [hws1, exceptBindOk, currentTok_eq hu3get]
    rw [if_neg (by rw [hu3k]; simp)]
    simp only [hR k (by omega)]
    rw [hdec, charToks_append, charToks_append, charToks_append, charToks_append,
      show charToks "=" = [classifyChar '='] from rfl,
      show charToks ", " = [classifyChar ',', classifyChar ' '] from rfl]
    rw [show i + (charToks ks ++ ([classifyChar '='] ++ (charToks (writeValue v0) ++
        ([classifyChar ',', classifyChar ' '] ++
          charToks (writeDictItems ((k1, v1) :: rest2)))))).length =
      i + (charToks ks).length + 1 + (charToks (writeValue v0)).length + 2 +
        (charToks (writeDictItems ((k1, v1) :: rest2))).length from by
      simp [List.length_append]; omega]
    simp [ptokOfTable, keyStr, List.append_assoc]
termination_by kvs hks hvs ts i acc rc hseg hrc hrck => sizeOf kvs

end


theorem dictInsert_fresh {kvs : List (PyKey × Value)} {k : PyKey} (v : Value)
    (h : ∀ p ∈ kvs, p.1 ≠ k) : dictInsert kvs k v = kvs ++ [(k, v)] := by
  unfold dictInsert
  have hany : kvs.any (fun p => p.1 == k) = false := by
    rw [List.any_eq_false]
    intro p hp
    simpa using h p hp
  rw [hany]
  simp

theorem mapOverwriteLast (pre : Document) (sk : PyKey) (v w : Value)
    (hfresh : ∀ q ∈ pre, q.1 ≠ sk) :
    (pre ++ [(sk, v)]).map (fun p => if p.1 == sk then (sk, w) else p) =
      pre ++ [(sk, w)] := by
  rw [List.map_append]
  congr 1
  · refine (List.map_congr_left ?_).trans (List.map_id pre)
    intro p hp
    simp only [id_eq]
    rw [if_neg (by simpa using hfresh p hp)]
  · simp

theorem replaceDash_id {s : String} (h : ∀ c ∈ s.data, c ≠ '-') :
    String.mk (s.data.map (fun c => if c = '-' then '_' else c)) = s := by
  have : s.data.map (fun c => if c = '-' then '_' else c) = s.data := by
    refine (List.map_congr_left ?_).trans (List.map_id s.data)
    intro c hc
    simp only [id_eq]
    rw [if_neg (h c hc)]
  rw [this]

set_option maxHeartbeats 1000000 in
mutual

theorem parseValuePyInv : ∀ (v : Value), GoodValue v →
    parseValuePy (ptokOfValue v) = .ok v
  | .str s, hv => rfl
  | .bool b, hv => absurd hv (by intro h; cases h)
  | .list vs, hv => by
    have hvs : ∀ v ∈ vs, GoodValue v := by
      cases hv
      assumption
    rw [show ptokOfValue (.list vs) = .list (ptokOfList vs) from rfl]
    rw [parseValuePy]
    rw [parseValueItemsInv vs hvs]
    rfl
  | .table kvs, hv => by
    have hks : ∀ p ∈ kvs, ∃ s, p.1 = PyKey.str s ∧ goodKeyStr s := by
      cases hv
      assumption
    have hvs : ∀ p ∈ kvs, GoodValue p.2 := by
      cases hv
      assumption
    have hnd : (kvs.map Prod.fst).Nodup := by
      cases hv
      assumption
    rw [show ptokOfValue (.table kvs) = .dict (ptokOfTable kvs) from rfl]
    rw [parseValuePy]
    rw [parseValuePairsInv kvs hks hvs hnd [] (by simp)]
    rfl
termination_by v hv => sizeOf v

theorem parseValueItemsInv : ∀ (vs : List Value), (∀ v ∈ vs, GoodValue v) →
    parseValueItems (ptokOfList vs) = .ok vs
  | [], hvs => rfl
  | v :: rest, hvs => by
    rw [show ptokOfList (v :: rest) = ptokOfValue v :: ptokOfList rest from rfl]
    rw [parseValueItems]
    rw [parseValuePyInv v (hvs v (List.mem_cons_self v rest))]
    rw [exceptBindOk]
    rw [parseValueItemsInv rest (fun x hx => hvs x (List.mem_cons_of_mem v hx))]
    rfl
termination_by vs hvs => sizeOf vs

theorem parseValuePairsInv : ∀ (kvs : List (PyKey × Value)),
    (∀ p ∈ kvs, ∃ s, p.1 = PyKey.str s ∧ goodKeyStr s) →
    (∀ p ∈ kvs, GoodValue p.2) → (kvs.map Prod.fst).Nodup →
    ∀ (acc : List (PyKey × Value)), (∀ p ∈ kvs, ∀ q ∈ acc, q.1 ≠ p.1) →
    parseValuePairs (ptokOfTable kvs) acc = .ok (acc ++ kvs)
  | [], hks, hvs, hnd, acc, hfresh => by
    rw [show ptokOfTable [] = [] from rfl]
    rw [parseValuePairs]
    simp
  | (k0, v0) :: rest, hks, hvs, hnd, acc, hfresh => by
    obtain ⟨ks, hk0eq, hgk⟩ := hks (k0, v0) (by simp)
    have hk0 : k0 = PyKey.str ks := hk0eq
    subst hk0
    rw [show ptokOfTable ((PyKey.str ks, v0) :: rest) =
      (.identifier (keyStr (PyKey.str ks)), ptokOfValue v0) :: ptokOfTable rest
      from rfl]
    rw [parseValuePairs]
    rw [show keyStr (PyKey.str ks) = ks from rfl]
    rw [show ptokAsKey (PTok.identifier ks) = .ok (.str ks) from rfl]
    rw [exceptBindOk]
    rw [parseValuePyInv v0 (hvs (PyKey.str ks, v0) (by simp))]
    rw [exceptBindOk]
    have hins : dictInsert acc (PyKey.str ks) v0 = acc ++ [(PyKey.str ks, v0)] :=
      dictInsert_fresh v0 (fun q hq =>
        hfresh (PyKey.str ks, v0) (by simp) q hq)
    rw [hins]
    have hnd2 : (rest.map Prod.fst).Nodup := (List.nodup_cons.mp (by simpa using hnd)).2
    have hk0notin : (PyKey.str ks : PyKey) ∉ rest.map Prod.fst :=
      (List.nodup_cons.mp (by simpa using hnd)).1
    have hfresh2 : ∀ p ∈ rest, ∀ q ∈ acc ++ [(PyKey.str ks, v0)], q.1 ≠ p.1 := by
      intro p hp q hq
      rcases List.mem_append.mp hq with hq1 | hq2
      · exact hfresh p (List.mem_cons_of_mem _ hp) q hq1
      · have hq3 : q = (PyKey.str ks, v0) := by simpa using hq2
        subst hq3
        intro hcontra
        have hps : p.1 = PyKey.str ks := by simpa using hcontra.symm
        exact hk0notin (hps ▸ List.mem_map_of_mem Prod.fst hp)
    rw [parseValuePairsInv rest
      (fun p hp => hks p (List.mem_cons_of_mem _ hp))
      (fun p hp => hvs p (List.mem_cons_of_mem _ hp)) hnd2
      (acc ++ [(PyKey.str ks, v0)]) hfresh2]
    simp
termination_by kvs hks hvs hnd acc hfresh => sizeOf kvs

end


theorem buildLoop_sect (s : String) (rest : List PTok) (result : Document)
    (cur : Option (PyKey × List (PyKey × Value))) :
    buildLoop (PTok.sect s :: rest) result cur =
      buildLoop rest (dictInsert result (.str s) (.table []))
        (some (.str s, [])) := rfl

theorem buildLoop_kv_some (ident val : PTok) (rest : List PTok)
    (result : Document) (sk : PyKey) (layer : List (PyKey × Value)) :
    buildLoop (PTok.keyValue ident val :: rest) result (some (sk, layer)) =
      (keyValueIdentKey ident >>= fun key =>
        parseValuePy val >>= fun v =>
          buildLoop rest
            (result.map (fun p =>
              if p.1 == sk then (sk, Value.table (dictInsert layer (.str key) v))
              else p))
            (some (sk, dictInsert layer (.str key) v))) := rfl

theorem buildRows : ∀ (t : List (PyKey × Value)),
    (∀ p ∈ t, ∃ s, p.1 = PyKey.str s ∧ goodKeyStr s) →
    (∀ p ∈ t, GoodValue p.2) → (t.map Prod.fst).Nodup →
    ∀ (pre : Document) (sk : PyKey) (layer : List (PyKey × Value))
      (restToks : List PTok),
    (∀ q ∈ pre, q.1 ≠ sk) →
    (∀ p ∈ t, ∀ q ∈ layer, q.1 ≠ p.1) →
    buildLoop (t.map (fun q => PTok.keyValue (.identifier (keyStr q.1))
        (ptokOfValue q.2)) ++ restToks)
      (pre ++ [(sk, Value.table layer)]) (some (sk, layer)) =
    buildLoop restToks (pre ++ [(sk, Value.table (layer ++ t))])
      (some (sk, layer ++ t)) := by
  intro t
  induction t with
  | nil =>
    intro hks hvs hnd pre sk layer restToks hfpre hflayer
    simp
  | cons p0 rest ih =>
    intro hks hvs hnd pre sk layer restToks hfpre hflayer
    obtain ⟨k0, v0⟩ := p0
    obtain ⟨ks, hk0eq, hgk⟩ := hks (k0, v0) (by simp)
    have hk0 : k0 = PyKey.str ks := hk0eq
    subst hk0
    have hgv : GoodValue v0 := hvs (PyKey.str ks, v0) (by simp)
    simp only [List.map_cons, List.cons_append]
    rw [buildLoop_kv_some]
    have hkey : keyValueIdentKey (PTok.identifier (keyStr (PyKey.str ks))) =
        .ok ks := by
      rw [show keyStr (PyKey.str ks) = ks from rfl]
      rw [show keyValueIdentKey (PTok.identifier ks) =
        .ok (String.mk (ks.data.map (fun c => if c = '-' then '_' else c)))
        from rfl]
      rw [replaceDash_id (fun c hc => (hgk.2.2 c hc).2)]
    rw [hkey, exceptBindOk, parseValuePyInv v0 hgv, exceptBindOk]
    have hins : dictInsert layer (PyKey.str ks) v0 =
        layer ++ [(PyKey.str ks, v0)] :=
      dictInsert_fresh v0 (fun q hq => hflayer (PyKey.str ks, v0) (by simp) q hq)
    rw [hins]
    rw [mapOverwriteLast pre sk (Value.table layer)
      (Value.table (layer ++ [(PyKey.str ks, v0)])) hfpre]
    have hnd2 : (rest.map Prod.fst).Nodup := (List.nodup_cons.mp (by simpa using hnd)).2
    have hk0notin : (PyKey.str ks : PyKey) ∉ rest.map Prod.fst :=
      (List.nodup_cons.mp (by simpa using hnd)).1
    have hflayer2 : ∀ p ∈ rest, ∀ q ∈ layer ++ [(PyKey.str ks, v0)], q.1 ≠ p.1 := by
      intro p hp q hq
      rcases List.mem_append.mp hq with hq1 | hq2
      · exact hflayer p (List.mem_cons_of_mem _ hp) q hq1
      · have hq3 : q = (PyKey.str ks, v0) := by simpa using hq2
        subst hq3
        intro hcontra
        have hps : p.1 = PyKey.str ks := by simpa using hcontra.symm
        exact hk0notin (hps ▸ List.mem_map_of_mem Prod.fst hp)
    rw [ih (fun p hp => hks p (List.mem_cons_of_mem _ hp))
      (fun p hp => hvs p (List.mem_cons_of_mem _ hp)) hnd2
      pre sk (layer ++ [(PyKey.str ks, v0)]) restToks hfpre hflayer2]
    simp

theorem buildSecs : ∀ (d : Document),
    (∀ p ∈ d, (∃ s, p.1 = PyKey.str s ∧ goodKeyStr s) ∧
      ∃ t, p.2 = Value.table t ∧ GoodValue (Value.table t)) →
    (d.map Prod.fst).Nodup →
    ∀ (result : Document) (cur : Option (PyKey × List (PyKey × Value))),
    (∀ p ∈ d, ∀ q ∈ result, q.1 ≠ p.1) →
    buildLoop (docPtoks d) result cur = .ok (result ++ d) := by
  intro d
  induction d with
  | nil =>
    intro hd hnd result cur hfresh
    simp [docPtoks, buildLoop]
  | cons p0 rest ih =>
    intro hd hnd result cur hfresh
    obtain ⟨k, v⟩ := p0
    obtain ⟨⟨ks, hkeq, hgk⟩, t, hveq, hgt⟩ := hd (k, v) (by simp)
    have hk : k = PyKey.str ks := hkeq
    subst hk
    have hv : v = Value.table t := hveq
    subst hv
    have hks2 : ∀ p ∈ t, ∃ s, p.1 = PyKey.str s ∧ goodKeyStr s := by
      cases hgt
      assumption
    have hvs2 : ∀ p ∈ t, GoodValue p.2 := by
      cases hgt
      assumption
    have hndt : (t.map Prod.fst).Nodup := by
      cases hgt
      assumption
    rw [show docPtoks ((PyKey.str ks, Value.table t) :: rest) =
      PTok.sect (keyStr (PyKey.str ks)) ::
        (t.map (fun q => PTok.keyValue (.identifier (keyStr q.1)) (ptokOfValue q.2))
          ++ docPtoks rest) from by
      unfold docPtoks
      rw [List.flatMap_cons]
      rfl]
    rw [buildLoop_sect]
    rw [show keyStr (PyKey.str ks) = ks from rfl]
    have hins : dictInsert result (PyKey.str ks) (Value.table []) =
        result ++ [(PyKey.str ks, Value.table [])] :=
      dictInsert_fresh (Value.table []) (fun q hq =>
        hfresh (PyKey.str ks, Value.table t) (by simp) q hq)
    rw [hins]
    rw [buildRows t hks2 hvs2 hndt result (PyKey.str ks) [] (docPtoks rest)
      (fun q hq => hfresh (PyKey.str ks, Value.table t) (by simp) q hq)
      (fun p hp q hq => absurd hq (by simp))]
    rw [List.nil_append]
    have hnd2 : (rest.map Prod.fst).Nodup := (List.nodup_cons.mp (by simpa using hnd)).2
    have hknotin : (PyKey.str ks : PyKey) ∉ rest.map Prod.fst :=
      (List.nodup_cons.mp (by simpa using hnd)).1
    have hfresh2 : ∀ p ∈ rest, ∀ q ∈ result ++ [(PyKey.str ks, Value.table t)],
        q.1 ≠ p.1 := by
      intro p hp q hq
      rcases List.mem_append.mp hq with hq1 | hq2
      · exact hfresh p (List.mem_cons_of_mem _ hp) q hq1
      · have hq3 : q = (PyKey.str ks, Value.table t) := by simpa using hq2
        subst hq3
        intro hcontra
        have hps : p.1 = PyKey.str ks := by simpa using hcontra.symm
        exact hknotin (hps ▸ List.mem_map_of_mem Prod.fst hp)
    rw [ih (fun p hp => hd p (List.mem_cons_of_mem _ hp)) hnd2
      (result ++ [(PyKey.str ks, Value.table t)]) (some (PyKey.str ks, t)) hfresh2]
    simp


theorem char_kind_ne_lf {c : Char} (h : (classifyChar c).kind = TokKind.char) :
    c ≠ '\n' := by
  intro hc
  subst hc
  exact absurd h (by decide)

theorem char_kind_ne_hash {c : Char} (h : (classifyChar c).kind = TokKind.char) :
    c ≠ '#' := by
  intro hc
  subst hc
  exact absurd h (by decide)

set_option maxHeartbeats 1000000 in
mutual

theorem wvNoLF : ∀ (v : Value), GoodValue v → ∀ c ∈ (writeValue v).data, c ≠ '\n'
  | .str s, hv => by
    have hs : goodStr s := by cases hv; assumption
    intro c hc
    rw [wv_str_eq] at hc
    simp only [String.data_append] at hc
    rcases List.mem_append.mp hc with hc1 | hc2
    · rcases List.mem_append.mp hc1 with hc3 | hc4
      · intro h
        subst h
        simpa using hc3
      · exact (hs c hc4).2.2.1
    · intro h
      subst h
      simpa using hc2
  | .bool b, hv => absurd hv (by intro h; cases h)
  | .list vs, hv => by
    have hvs : ∀ v ∈ vs, GoodValue v := by cases hv; assumption
    intro c hc
    rw [wv_list_eq] at hc
    simp only [String.data_append] at hc
    rcases List.mem_append.mp hc with hc1 | hc2
    · rcases List.mem_append.mp hc1 with hc3 | hc4
      · intro h
        subst h
        simpa using hc3
      · exact wliNoLF vs hvs c hc4
    · intro h
      subst h
      simpa using hc2
  | .table kvs, hv => by
    have hks : ∀ p ∈ kvs, ∃ s, p.1 = PyKey.str s ∧ goodKeyStr s := by
      cases hv; assumption
    have hvs : ∀ p ∈ kvs, GoodValue p.2 := by cases hv; assumption
    intro c hc
    rw [wv_table_eq] at hc
    simp only [String.data_append] at hc
    rcases List.mem_append.mp hc with hc1 | hc2
    · rcases List.mem_append.mp hc1 with hc3 | hc4
      · intro h
        subst h
        simpa using hc3
      · exact wdiNoLF kvs hks hvs c hc4
    · intro h
      subst h
      simpa using hc2
termination_by v hv => sizeOf v

theorem wliNoLF : ∀ (vs : List Value), (∀ v ∈ vs, GoodValue v) →
    ∀ c ∈ (writeListItems vs).data, c ≠ '\n'
  | [], hvs => by
    intro c hc
    exact absurd hc (by rw [show writeListItems ([] : List Value) = "" from rfl]; simp)
  | [v], hvs => by
    intro c hc
    exact wvNoLF v (hvs v (by simp)) c hc
  | v :: w :: rest, hvs => by
    intro c hc
    rw [writeListItems_cons2] at hc
    simp only [String.data_append] at hc
    rcases List.mem_append.mp hc with hc1 | hc2
    · rcases List.mem_append.mp hc1 with hc3 | hc4
      · exact wvNoLF v (hvs v (by simp)) c hc3
      · intro h
        subst h
        simpa using hc4
    · exact wliNoLF (w :: rest) (fun x hx => hvs x (List.mem_cons_of_mem v hx)) c hc2
termination_by vs hvs => sizeOf vs

theorem wdiNoLF : ∀ (kvs : List (PyKey × Value)),
    (∀ p ∈ kvs, ∃ s, p.1 = PyKey.str s ∧ goodKeyStr s) →
    (∀ p ∈ kvs, GoodValue p.2) →
    ∀ c ∈ (writeDictItems kvs).data, c ≠ '\n'
  | [], hks, hvs => by
    intro c hc
    exact absurd hc
      (by rw [show writeDictItems ([] : List (PyKey × Value)) = "" from rfl]; simp)
  | [(k0, v0)], hks, hvs => by
    intro c hc
    obtain ⟨ks, hk0eq, hgk⟩ := hks (k0, v0) (by simp)
    have hk0 : k0 = PyKey.str ks := hk0eq
    subst hk0
    rw [writeDictItems_single, show keyStr (PyKey.str ks) = ks from rfl] at hc
    simp only [String.data_append] at hc
    rcases List.mem_append.mp hc with hc1 | hc2
    · rcases List.mem_append.mp hc1 with hc3 | hc4
      · exact char_kind_ne_lf ((hgk.2.2 c hc3).1)
      · intro h
        subst h
        simpa using hc4
    · exact wvNoLF v0 (hvs (PyKey.str ks, v0) (by simp)) c hc2
  | (k0, v0) :: q :: rest, hks, hvs => by
    intro c hc
    obtain ⟨ks, hk0eq, hgk⟩ := hks (k0, v0) (by simp)
    have hk0 : k0 = PyKey.str ks := hk0eq
    subst hk0
    rw [writeDictItems_cons2, show keyStr (PyKey.str ks) = ks from rfl] at hc
    simp only [String.data_append] at hc
    rcases List.mem_append.mp hc with hc1 | hc2
    · rcases List.mem_append.mp hc1 with hc3 | hc4
      · rcases List.mem_append.mp hc3 with hc5 | hc6
        · rcases List.mem_append.mp hc5 with hc7 | hc8
          · exact char_kind_ne_lf ((hgk.2.2 c hc7).1)
          · intro h
            subst h
            simpa using hc8
        · exact wvNoLF v0 (hvs (PyKey.str ks, v0) (by simp)) c hc6
      · intro h
        subst h
        simpa using hc4
    · exact wdiNoLF (q :: rest)
        (fun p hp => hks p (List.mem_cons_of_mem _ hp))
        (fun p hp => hvs p (List.mem_cons_of_mem _ hp)) c hc2
termination_by kvs hks hvs => sizeOf kvs

end

theorem splitLinesAux_line : ∀ (body : List Char), '\n' ∉ body →
    ∀ (rest : List Char) (acc : List Char),
    splitLinesAux (body ++ '\n' :: rest) acc =
      String.mk (acc.reverse ++ body ++ ['\n']) :: splitLinesAux rest [] := by
  intro body
  induction body with
  | nil =>
    intro h rest acc
    simp [splitLinesAux]
  | cons c body2 ih =>
    intro h rest acc
    have hc : c ≠ '\n' := by
      intro hcc
      exact h (by rw [hcc]; exact List.mem_cons_self _ _)
    rw [List.cons_append, splitLinesAux, if_neg hc,
      ih (fun hm => h (List.mem_cons_of_mem c hm)) rest (c :: acc)]
    simp

theorem splitFlat : ∀ (cs : List Char), CleanText cs →
    (splitLinesAux cs []).flatMap
      (fun l => if startsWithHash l then [] else l.data.map classifyChar) =
    cs.map classifyChar := by
  intro cs hcs
  induction hcs with
  | nil => rfl
  | line body rest h1 h2 hrec ih =>
    rw [splitLinesAux_line body h1 rest []]
    rw [List.flatMap_cons]
    have hsw : startsWithHash (String.mk (body ++ ['\n'])) = false := by
      cases body with
      | nil => rfl
      | cons c b2 =>
        have hc : c ≠ '#' := by
          intro hcc
          exact h2 (by rw [hcc]; rfl)
        simp [startsWithHash, hc]
    rw [if_neg (by simp [hsw])]
    rw [ih]
    simp

theorem tokenize_clean (cs : List Char) (hcs : CleanText cs) :
    tokenize (splitLinesAux cs []) = cs.map classifyChar ++ [⟨.eof, ""⟩] := by
  unfold tokenize
  rw [tokenizeFold_eq, splitFlat cs hcs]
  simp


theorem cleanRows : ∀ (t : List (PyKey × Value)),
    (∀ p ∈ t, ∃ s, p.1 = PyKey.str s ∧ goodKeyStr s) →
    (∀ p ∈ t, GoodValue p.2) →
    ∀ (tail : List Char), CleanText tail →
    CleanText ((writeRootLines t).data ++ tail) := by
  intro t
  induction t with
  | nil =>
    intro hks hvs tail htail
    rw [show writeRootLines ([] : List (PyKey × Value)) = "" from rfl]
    simpa using htail
  | cons p0 rest ih =>
    intro hks hvs tail htail
    obtain ⟨k0, v0⟩ := p0
    obtain ⟨ks, hk0eq, hgk⟩ := hks (k0, v0) (by simp)
    have hk0 : k0 = PyKey.str ks := hk0eq
    subst hk0
    have hgv : GoodValue v0 := hvs (PyKey.str ks, v0) (by simp)
    rw [show writeRootLines ((PyKey.str ks, v0) :: rest) =
      ks ++ "=" ++ writeValue v0 ++ "\n" ++ writeRootLines rest from rfl]
    simp only [String.data_append, List.append_assoc]
    have hshape :
        ks.data ++ (['='] ++ ((writeValue v0).data ++ (['\n'] ++
          ((writeRootLines rest).data ++ tail)))) =
        (ks.data ++ '=' :: (writeValue v0).data) ++
          '\n' :: ((writeRootLines rest).data ++ tail) := by
      simp
    rw [hshape]
    apply CleanText.line
    · intro hm
      rcases List.mem_append.mp hm with hm1 | hm2
      · exact char_kind_ne_lf ((hgk.2.2 '\n' hm1).1) rfl
      · rcases List.mem_cons.mp hm2 with hm3 | hm4
        · exact absurd hm3.symm (by decide)
        · exact wvNoLF v0 hgv '\n' hm4 rfl
    · cases hksd : ks.data with
      | nil =>
        exact absurd (data_nil_iff.mp hksd) hgk.1
      | cons c cs2 =>
        have hc : c ≠ '#' :=
          char_kind_ne_hash (hgk.2.2 c (by rw [hksd]; exact List.mem_cons_self c cs2)).1
        simpa using hc
    · exact ih (fun p hp => hks p (List.mem_cons_of_mem _ hp))
        (fun p hp => hvs p (List.mem_cons_of_mem _ hp)) tail htail

theorem cleanDoc : ∀ (d : Document),
    (∀ p ∈ d, (∃ s, p.1 = PyKey.str s ∧ goodKeyStr s) ∧
      ∃ t, p.2 = Value.table t ∧ GoodValue (Value.table t)) →
    CleanText (docText d).data := by
  intro d
  induction d with
  | nil =>
    intro hd
    rw [show docText [] = "" from rfl]
    exact CleanText.nil
  | cons p0 rest ih =>
    intro hd
    obtain ⟨k, v⟩ := p0
    obtain ⟨⟨ks, hkeq, hgk⟩, t, hveq, hgt⟩ := hd (k, v) (by simp)
    have hk : k = PyKey.str ks := hkeq
    subst hk
    have hv : v = Value.table t := hveq
    subst hv
    have hks2 : ∀ p ∈ t, ∃ s, p.1 = PyKey.str s ∧ goodKeyStr s := by
      cases hgt; assumption
    have hvs2 : ∀ p ∈ t, GoodValue p.2 := by
      cases hgt; assumption
    rw [show docText ((PyKey.str ks, Value.table t) :: rest) =
      "[" ++ keyStr (PyKey.str ks) ++ "]\n" ++ writeRootLines t ++ "\n" ++
        docText rest from rfl]
    rw [show keyStr (PyKey.str ks) = ks from rfl]
    simp only [String.data_append, List.append_assoc]
    have hshape :
        ['['] ++ (ks.data ++ ([']', '\n'] ++ ((writeRootLines t).data ++
          (['\n'] ++ (docText rest).data)))) =
        ('[' :: (ks.data ++ [']'])) ++
          '\n' :: ((writeRootLines t).data ++ ('\n' :: (docText rest).data)) := by
      simp
    rw [hshape]
    apply CleanText.line
    · intro hm
      rcases List.mem_cons.mp hm with hm1 | hm2
      · exact absurd hm1.symm (by decide)
      · rcases List.mem_append.mp hm2 with hm3 | hm4
        · exact char_kind_ne_lf ((hgk.2.2 '\n' hm3).1) rfl
        · exact absurd (by simpa using hm4) (by decide : ('\n' : Char) ≠ ']')
    · simp
    · apply cleanRows t hks2 hvs2
      have : ('\n' :: (docText rest).data) =
          ([] : List Char) ++ '\n' :: (docText rest).data := by simp
      rw [this]
      exact CleanText.line [] (docText rest).data (by simp) (by simp)
        (ih (fun p hp => hd p (List.mem_cons_of_mem _ hp)))


theorem rootLast : ∀ (t : List (PyKey × Value)), t ≠ [] →
    ∃ pre, charToks (writeRootLines t) = pre ++ [classifyChar '\n'] := by
  intro t
  induction t with
  | nil => intro h; exact absurd rfl h
  | cons p0 rest ih =>
    intro h
    obtain ⟨k0, v0⟩ := p0
    rw [show writeRootLines ((k0, v0) :: rest) =
      keyStr k0 ++ "=" ++ writeValue v0 ++ "\n" ++ writeRootLines rest from rfl]
    cases hr : rest with
    | nil =>
      refine ⟨charToks (keyStr k0 ++ "=" ++ writeValue v0), ?_⟩
      rw [charToks_append, charToks_append]
      rw [show writeRootLines ([] : List (PyKey × Value)) = "" from rfl]
      rw [show charToks "" = [] from rfl, List.append_nil]
      rfl
    | cons q r =>
      obtain ⟨pre, hpre⟩ := ih (by rw [hr]; simp)
      rw [← hr]
      refine ⟨charToks (keyStr k0 ++ "=" ++ writeValue v0 ++ "\n") ++ pre, ?_⟩
      rw [charToks_append, hpre]
      simp

theorem rowsRT : ∀ (t : List (PyKey × Value)),
    (∀ p ∈ t, ∃ s, p.1 = PyKey.str s ∧ goodKeyStr s) →
    (∀ p ∈ t, GoodValue p.2) →
    ∀ (ts : List TomlToken) (p : Nat) (acc RES : List PTok),
    ts.get? p = some (classifyChar '\n') →
    SegAt ts (p + 1) (charToks (writeRootLines t)) →
    (∃ n, ∀ m, n ≤ m →
      innerLoop ts (p + (charToks (writeRootLines t)).length)
        (acc ++ t.map (fun q => PTok.keyValue (.identifier (keyStr q.1))
          (ptokOfValue q.2))) m = .ok RES) →
    ∃ n, ∀ m, n ≤ m → innerLoop ts p acc m = .ok RES := by
  intro t
  induction t with
  | nil =>
    intro hks hvs ts p acc RES hp0 hseg hcont
    obtain ⟨n, h⟩ := hcont
    refine ⟨n, fun m hm => ?_⟩
    have h2 := h m hm
    rw [show (charToks (writeRootLines ([] : List (PyKey × Value)))).length = 0
      from rfl] at h2
    simpa using h2
  | cons p0 rest ih =>
    intro hks hvs ts p acc RES hp0 hseg hcont
    obtain ⟨k0, v0⟩ := p0
    obtain ⟨ks, hk0eq, hgk⟩ := hks (k0, v0) (by simp)
    have hk0 : k0 = PyKey.str ks := hk0eq
    subst hk0
    have hgv : GoodValue v0 := hvs (PyKey.str ks, v0) (by simp)
    have hdec : writeRootLines ((PyKey.str ks, v0) :: rest) =
        ks ++ ("=" ++ (writeValue v0 ++ ("\n" ++ writeRootLines rest))) := by
      rw [show writeRootLines ((PyKey.str ks, v0) :: rest) =
        keyStr (PyKey.str ks) ++ "=" ++ writeValue v0 ++ "\n" ++
          writeRootLines rest from rfl]
      simp [String.append_assoc, keyStr]
    rw [hdec, charToks_append, charToks_append, charToks_append, charToks_append,
      show charToks "=" = [classifyChar '='] from rfl,
      show charToks "\n" = [classifyChar '\n'] from rfl] at hseg
    obtain ⟨hsegK, hseg1⟩ := SegAt_append hseg
    obtain ⟨hEq, hseg2⟩ := SegAt_cons hseg1
    simp only [List.append_eq, List.nil_append] at hseg2
    obtain ⟨hsegV, hseg3⟩ := SegAt_append hseg2
    obtain ⟨hlfr, hsegR⟩ := SegAt_cons hseg3
    simp only [List.append_eq, List.nil_append] at hsegR
    obtain ⟨nV, hV⟩ := valueRT v0 hgv ts (p + 1 + (charToks ks).length + 1)
      (classifyChar '\n') hsegV hlfr
    obtain ⟨uk, ukr, huk, hukk⟩ := keyFirst_char hgk
    have hukget : ts.get? (p + 1) = some uk := by
      rw [huk] at hsegK
      exact (SegAt_cons hsegK).1
    obtain ⟨uv, uvr, huv, huvk⟩ := firstTokGood hgv
    have huvget : ts.get? (p + 1 + (charToks ks).length + 1) = some uv := by
      rw [huv] at hsegV
      exact (SegAt_cons hsegV).1
    have hidx : p + (charToks (writeRootLines ((PyKey.str ks, v0) :: rest))).length =
        p + 1 + (charToks ks).length + 1 + (charToks (writeValue v0)).length +
          (charToks (writeRootLines rest)).length := by
      rw [hdec, charToks_append, charToks_append, charToks_append, charToks_append,
        show charToks "=" = [classifyChar '='] from rfl,
        show charToks "\n" = [classifyChar '\n'] from rfl]
      simp [List.length_append]
      omega
    have hcont2 : ∃ n, ∀ m, n ≤ m →
        innerLoop ts (p + 1 + (charToks ks).length + 1 +
            (charToks (writeValue v0)).length +
            (charToks (writeRootLines rest)).length)
          ((acc ++ [PTok.keyValue (.identifier ks) (ptokOfValue v0)]) ++
            rest.map (fun q => PTok.keyValue (.identifier (keyStr q.1))
              (ptokOfValue q.2))) m = .ok RES := by
      obtain ⟨n, h⟩ := hcont
      refine ⟨n, fun m hm => ?_⟩
      have h2 := h m hm
      rw [hidx] at h2
      rw [show acc ++ ((PyKey.str ks, v0) :: rest).map
          (fun q => PTok.keyValue (.identifier (keyStr q.1)) (ptokOfValue q.2)) =
        (acc ++ [PTok.keyValue (.identifier ks) (ptokOfValue v0)]) ++
          rest.map (fun q => PTok.keyValue (.identifier (keyStr q.1))
            (ptokOfValue q.2)) from by simp [keyStr]] at h2
      exact h2
    obtain ⟨n2, hIH⟩ := ih (fun q hq => hks q (List.mem_cons_of_mem _ hq))
      (fun q hq => hvs q (List.mem_cons_of_mem _ hq)) ts
      (p + 1 + (charToks ks).length + 1 + (charToks (writeValue v0)).length)
      (acc ++ [PTok.keyValue (.identifier ks) (ptokOfValue v0)]) RES hlfr hsegR hcont2
    obtain ⟨hplt, -⟩ := List.get?_eq_some.mp hp0
    refine ⟨nV + n2 + (charToks ks).length + 12, ?_⟩
    intro m hm
    obtain ⟨k, rfl⟩ : ∃ k, m = k + 1 := ⟨m - 1, by omega⟩
    have hpt : parseToken false ts p k =
        .ok (PTok.keyValue (.identifier ks) (ptokOfValue v0),
          p + 1 + (charToks ks).length + 1 + (charToks (writeValue v0)).length) := by
      obtain ⟨k2, rfl⟩ : ∃ j, k = j + 1 := ⟨k - 1, by omega⟩
      rw [parseToken]
      have hws := skipWs1 hp0 rfl hukget (kind_char_not_ws hukk) k2 (by omega)
      simp only [hws, exceptBindOk, currentTok_eq hukget, hukk]
      rw [if_neg (by simp)]
      obtain ⟨k3, rfl⟩ : ∃ j, k2 = j + 1 := ⟨k2 - 1, by omega⟩
      rw [parseKeyValue]
      have hid := parseIdentifier_false_ok hgk hsegK hEq (by decide) k3 (by omega)
      simp only [hid, exceptBindOk]
      have hws2 := skipWs0 hEq rfl k3 (by omega)
      simp only [hws2, exceptBindOk, currentTok_eq hEq,
        show (classifyChar '=').kind = TokKind.equal from rfl, beq_self_eq_true,
        if_true, nextTok_eq huvget]
      simp only [hV k3 (by omega), exceptBindOk, exceptPure]
    rw [innerLoop, if_pos hplt]
    simp only [hpt, exceptBindOk]
    exact hIH k (by omega)


theorem docRT : ∀ (d : Document),
    (∀ p ∈ d, (∃ s, p.1 = PyKey.str s ∧ goodKeyStr s) ∧
      ∃ t, p.2 = Value.table t ∧ GoodValue (Value.table t)) →
    ∀ (ws : List TomlToken), (∀ u ∈ ws, isWsTok u = true) →
    ∀ (ts : List TomlToken) (i : Nat) (acc : List PTok),
    SegAt ts i ws →
    SegAt ts (i + ws.length) (charToks (docText d)) →
    ts.get? (i + ws.length + (charToks (docText d)).length) = some ⟨.eof, ""⟩ →
    ∃ n, ∀ m, n ≤ m → innerLoop ts i acc m = .ok (acc ++ docPtoks d) := by
  intro d
  induction d with
  | nil =>
    intro hd ws hws ts i acc hsegWs hseg heof
    rw [show (charToks (docText [])).length = 0 from rfl] at heof
    have heof2 : ts.get? (i + ws.length) = some ⟨TokKind.eof, ""⟩ := by
      simpa using heof
    have hi : ∃ u, ts.get? i = some u := by
      cases hws0 : ws with
      | nil =>
        refine ⟨⟨TokKind.eof, ""⟩, ?_⟩
        rw [hws0] at heof2
        simpa using heof2
      | cons u ws2 =>
        rw [hws0] at hsegWs
        exact ⟨u, (SegAt_cons hsegWs).1⟩
    obtain ⟨u0, hu0⟩ := hi
    obtain ⟨hilt, -⟩ := List.get?_eq_some.mp hu0
    refine ⟨ws.length + 5, ?_⟩
    intro m hm
    obtain ⟨k, rfl⟩ : ∃ k, m = k + 1 := ⟨m - 1, by omega⟩
    have hpt : parseToken false ts i k = .ok (PTok.eof, i + ws.length) := by
      obtain ⟨k2, rfl⟩ : ∃ j, k = j + 1 := ⟨k - 1, by omega⟩
      rw [parseToken]
      have hws2 := skipWhitespace_ok hws hsegWs heof2 rfl k2 (by omega)
      simp only [hws2, exceptBindOk, currentTok_eq heof2]
      exact rfl
    rw [innerLoop, if_pos hilt]
    simp only [hpt, exceptBindOk]
    rw [show docPtoks [] = [] from rfl]
    simp [exceptPure]
  | cons p0 rest ih =>
    intro hd ws hws ts i acc hsegWs hseg heof
    obtain ⟨k0, v0⟩ := p0
    obtain ⟨⟨ks, hkeq, hgk⟩, t, hveq, hgt⟩ := hd (k0, v0) (by simp)
    have hk : k0 = PyKey.str ks := hkeq
    subst hk
    have hv : v0 = Value.table t := hveq
    subst hv
    have hks2 : ∀ p ∈ t, ∃ s, p.1 = PyKey.str s ∧ goodKeyStr s := by
      cases hgt; assumption
    have hvs2 : ∀ p ∈ t, GoodValue p.2 := by
      cases hgt; assumption
    have hdec : docText ((PyKey.str ks, Value.table t) :: rest) =
        "[" ++ (ks ++ ("]\n" ++ (writeRootLines t ++ ("\n" ++ docText rest)))) := by
      rw [show docText ((PyKey.str ks, Value.table t) :: rest) =
        ("[" ++ keyStr (PyKey.str ks) ++ "]\n" ++ writeRootLines t ++ "\n") ++
          docText rest from rfl]
      simp [String.append_assoc, keyStr]
    rw [hdec, charToks_append, charToks_append, charToks_append, charToks_append,
      charToks_append,
      show charToks "[" = [classifyChar '['] from rfl,
      show charToks "]\n" = [classifyChar ']', classifyChar '\n'] from rfl,
      show charToks "\n" = [classifyChar '\n'] from rfl] at hseg heof
    obtain ⟨hlb, hseg1⟩ := SegAt_cons hseg
    simp only [List.append_eq, List.nil_append] at hseg1
    obtain ⟨hsegK, hseg2⟩ := SegAt_append hseg1
    obtain ⟨hrb, hseg3⟩ := SegAt_cons hseg2
    simp only [List.append_eq, List.nil_append] at hseg3
    obtain ⟨hlf1, hseg4⟩ := SegAt_cons hseg3
    simp only [List.append_eq, List.nil_append] at hseg4
    obtain ⟨hsegRows, hseg5⟩ := SegAt_append hseg4
    obtain ⟨hlf2, hseg6⟩ := SegAt_cons hseg5
    simp only [List.append_eq, List.nil_append] at hseg6
    have hqget : ts.get? (i + ws.length + 1 + (charToks ks).length + 1 +
        (charToks (writeRootLines t)).length) = some (classifyChar '\n') := by
      rcases eq_or_ne t [] with ht0 | ht0
      · subst ht0
        rw [show (charToks (writeRootLines ([] : List (PyKey × Value)))).length = 0
          from rfl]
        simpa using hlf1
      · obtain ⟨pre, hpre⟩ := rootLast t ht0
        have hlen : (charToks (writeRootLines t)).length = pre.length + 1 := by
          rw [hpre]
          simp
        have hgetpre := hsegRows pre.length (by rw [hpre]; simp)
        rw [hpre, List.get?_concat_length] at hgetpre
        rw [hlen, show i + ws.length + 1 + (charToks ks).length + 1 +
          (pre.length + 1) = i + ws.length + 1 + (charToks ks).length + 1 + 1 +
          pre.length from by omega]
        exact hgetpre
    have hlf2' : ts.get? (i + ws.length + 1 + (charToks ks).length + 1 +
        (charToks (writeRootLines t)).length + 1) = some (classifyChar '\n') := by
      rw [show i + ws.length + 1 + (charToks ks).length + 1 +
        (charToks (writeRootLines t)).length + 1 =
        i + ws.length + 1 + (charToks ks).length + 1 + 1 +
        (charToks (writeRootLines t)).length from by omega]
      exact hlf2
    have hsegLfLf : SegAt ts (i + ws.length + 1 + (charToks ks).length + 1 +
        (charToks (writeRootLines t)).length)
        [classifyChar '\n', classifyChar '\n'] :=
      SegAt_cons_intro hqget (SegAt_cons_intro hlf2' (SegAt_nil ts _))
    have hseg6' : SegAt ts (i + ws.length + 1 + (charToks ks).length + 1 +
        (charToks (writeRootLines t)).length +
        ([classifyChar '\n', classifyChar '\n'] : List TomlToken).length)
        (charToks (docText rest)) := by
      rw [show i + ws.length + 1 + (charToks ks).length + 1 +
        (charToks (writeRootLines t)).length +
        ([classifyChar '\n', classifyChar '\n'] : List TomlToken).length =
        i + ws.length + 1 + (charToks ks).length + 1 + 1 +
        (charToks (writeRootLines t)).length + 1 from by simp; omega]
      exact hseg6
    have heof' : ts.get? (i + ws.length + 1 + (charToks ks).length + 1 +
        (charToks (writeRootLines t)).length +
        ([classifyChar '\n', classifyChar '\n'] : List TomlToken).length +
        (charToks (docText rest)).length) = some ⟨TokKind.eof, ""⟩ := by
      rw [show i + ws.length + 1 + (charToks ks).length + 1 +
        (charToks (writeRootLines t)).length +
        ([classifyChar '\n', classifyChar '\n'] : List TomlToken).length +
        (charToks (docText rest)).length =
        i + ws.length + ([classifyChar '['] ++ (charToks ks ++
          ([classifyChar ']', classifyChar '\n'] ++
            (charToks (writeRootLines t) ++
              ([classifyChar '\n'] ++ charToks (docText rest)))))).length from by
        simp [List.length_append]
        omega]
      exact heof
    obtain ⟨n3, h3⟩ := ih (fun p hp => hd p (List.mem_cons_of_mem _ hp))
      [classifyChar '\n', classifyChar '\n']
      (by
        intro u hu
        have h : u = classifyChar '\n' := by simpa using hu
        rw [h]
        rfl) ts
      (i + ws.length + 1 + (charToks ks).length + 1 +
        (charToks (writeRootLines t)).length)
      ((acc ++ [PTok.sect ks]) ++ t.map (fun q =>
        PTok.keyValue (.identifier (keyStr q.1)) (ptokOfValue q.2)))
      hsegLfLf hseg6' heof'
    have hcont : ∃ n, ∀ m, n ≤ m →
        innerLoop ts (i + ws.length + 1 + (charToks ks).length + 1 +
            (charToks (writeRootLines t)).length)
          ((acc ++ [PTok.sect ks]) ++ t.map (fun q =>
            PTok.keyValue (.identifier (keyStr q.1)) (ptokOfValue q.2))) m =
          .ok (acc ++ docPtoks ((PyKey.str ks, Value.table t) :: rest)) := by
      refine ⟨n3, fun m hm => ?_⟩
      rw [h3 m hm]
      rw [show docPtoks ((PyKey.str ks, Value.table t) :: rest) =
        PTok.sect ks :: (t.map (fun q =>
          PTok.keyValue (.identifier (keyStr q.1)) (ptokOfValue q.2)) ++
          docPtoks rest) from by
        unfold docPtoks
        rw [List.flatMap_cons]
        rfl]
      simp
    obtain ⟨n2, h2⟩ := rowsRT t hks2 hvs2 ts
      (i + ws.length + 1 + (charToks ks).length + 1) (acc ++ [PTok.sect ks])
      (acc ++ docPtoks ((PyKey.str ks, Value.table t) :: rest)) hlf1 hsegRows hcont
    have hi : ∃ u, ts.get? i = some u := by
      cases hws0 : ws with
      | nil =>
        refine ⟨classifyChar '[', ?_⟩
        rw [hws0] at hlb
        simpa using hlb
      | cons u ws2 =>
        rw [hws0] at hsegWs
        exact ⟨u, (SegAt_cons hsegWs).1⟩
    obtain ⟨u0, hu0⟩ := hi
    obtain ⟨hilt, -⟩ := List.get?_eq_some.mp hu0
    refine ⟨n2 + ws.length + (charToks ks).length + 12, ?_⟩
    intro m hm
    obtain ⟨k, rfl⟩ : ∃ k, m = k + 1 := ⟨m - 1, by omega⟩
    have hpt : parseToken false ts i k =
        .ok (PTok.sect ks, i + ws.length + 1 + (charToks ks).length + 1) := by
      obtain ⟨k2, rfl⟩ : ∃ j, k = j + 1 := ⟨k - 1, by omega⟩
      rw [parseToken]
      have hskip := skipWhitespace_ok hws hsegWs hlb
        (by rw [show isWsTok (classifyChar '[') = false from rfl]) k2 (by omega)
      simp only [hskip, exceptBindOk, currentTok_eq hlb,
        show (classifyChar '[').kind = TokKind.lbracket from rfl]
      rw [if_neg (by simp)]
      exact parseSection_ok hgk hsegK hrb rfl hlf1 k2 (by omega)
    rw [innerLoop, if_pos hilt]
    simp only [hpt, exceptBindOk]
    exact h2 k (by omega)


theorem writeData_ok : ∀ (d : Document), (∀ p ∈ d, ∃ t, p.2 = Value.table t) →
    writeData d = .ok (docText d) := by
  intro d
  induction d with
  | nil => intro h; rfl
  | cons p0 rest ih =>
    intro h
    obtain ⟨k, v⟩ := p0
    obtain ⟨t, hveq⟩ := h (k, v) (by simp)
    have hv : v = Value.table t := hveq
    subst hv
    rw [show writeData ((k, Value.table t) :: rest) =
      (writeData rest).map (fun out =>
        "[" ++ keyStr k ++ "]\n" ++ writeRootLines t ++ "\n" ++ out) from rfl]
    rw [ih (fun q hq => h q (List.mem_cons_of_mem _ hq))]
    rw [show docText ((k, Value.table t) :: rest) =
      ("[" ++ keyStr k ++ "]\n" ++ writeRootLines t ++ "\n") ++ docText rest
      from rfl]
    simp [Except.map, String.append_assoc]

theorem docToks_eq (d : Document)
    (hd : ∀ p ∈ d, (∃ s, p.1 = PyKey.str s ∧ goodKeyStr s) ∧
      ∃ t, p.2 = Value.table t ∧ GoodValue (Value.table t)) :
    tokenize (splitLines (docText d)) =
      charToks (docText d) ++ [⟨.eof, ""⟩] := by
  unfold splitLines
  rw [tokenize_clean (docText d).data (cleanDoc d hd)]
  rfl

theorem parse_of_write (d : Document) (hd : GoodDoc d) :
    ∃ n, ∀ m, n ≤ m → parseTomlText (docText d) m = .ok d := by
  obtain ⟨hd1, hnd⟩ := hd
  have hts := docToks_eq d hd1
  have hseg : SegAt (charToks (docText d) ++ [⟨.eof, ""⟩]) 0
      (charToks (docText d)) := by
    intro k hk
    rw [Nat.zero_add]
    exact List.get?_append hk
  have heof : (charToks (docText d) ++ [(⟨.eof, ""⟩ : TomlToken)]).get?
      (0 + (0 : Nat) + (charToks (docText d)).length) =
      some (⟨.eof, ""⟩ : TomlToken) := by
    simp only [Nat.zero_add]
    exact List.get?_concat_length _ _
  obtain ⟨n, h⟩ := docRT d hd1 [] (by simp)
    (charToks (docText d) ++ [⟨.eof, ""⟩]) 0 []
    (SegAt_nil _ _) (by simpa using hseg) (by simpa using heof)
  refine ⟨n + 1, fun m hm => ?_⟩
  unfold parseTomlText parseTomlLines parseToml
  rw [hts]
  unfold parseInner
  rw [if_neg (by simp)]
  rw [h m (by omega), exceptBindOk, List.nil_append]
  rw [buildSecs d hd1 hnd [] none (fun p hp q hq => absurd hq (by simp))]
  simp


/-- Claim C1 (amended): for every document in the round-trip class `GoodDoc`
(top-level entries all tables; keys non-empty, made of CHAR-class characters,
without `-`, and not the word `False`; string values without quote or
line-control characters; per-table keys unique), `TomlWriter.write` succeeds
and re-parsing its output (tokenize, then `TomlParser.parse`, with enough
fuel) returns exactly the original document. -/
theorem C1_amended (d : Document) (hd : GoodDoc d) :
    ∃ out, writeToml d = .ok out ∧
      ∃ n, ∀ m, n ≤ m → parseTomlText out m = .ok d := by
  refine ⟨docText d, ?_, parse_of_write d hd⟩
  exact writeData_ok d (fun p hp => Exists.imp (fun t ht => ht.1) (hd.1 p hp).2)

/-- Witness for C1: the round-trip theorem applied to the concrete document
`{a: {b: "x"}}`. -/
theorem C1_witness :
    GoodDoc [(PyKey.str "a", Value.table [(PyKey.str "b", Value.str "x")])] ∧
    ∃ out,
      writeToml [(PyKey.str "a", Value.table [(PyKey.str "b", Value.str "x")])] =
        .ok out ∧
      ∃ n, ∀ m, n ≤ m → parseTomlText out m =
        .ok [(PyKey.str "a", Value.table [(PyKey.str "b", Value.str "x")])] := by
  have hgd : GoodDoc
      [(PyKey.str "a", Value.table [(PyKey.str "b", Value.str "x")])] := by
    constructor
    · intro p hp
      have hp2 : p = (PyKey.str "a",
          Value.table [(PyKey.str "b", Value.str "x")]) := by
        simpa using hp
      subst hp2
      refine ⟨⟨"a", rfl, by unfold goodKeyStr; decide⟩, [(PyKey.str "b", Value.str "x")], rfl, ?_⟩
      refine GoodValue.table _ ?_ ?_ ?_
      · intro q hq
        have hq2 : q = (PyKey.str "b", Value.str "x") := by simpa using hq
        subst hq2
        exact ⟨"b", rfl, by unfold goodKeyStr; decide⟩
      · intro q hq
        have hq2 : q = (PyKey.str "b", Value.str "x") := by simpa using hq
        subst hq2
        exact GoodValue.str _ (by unfold goodStr; decide)
      · decide
    · decide
  exact ⟨hgd, C1_amended _ hgd⟩

/-- Counterexample to the claim's unrestricted round trip: a key containing
`-` is written verbatim but re-parses with `-` rewritten to `_`, so the
re-parsed document differs from the original. -/
theorem C1_counterexample :
    writeToml [(PyKey.str "a", Value.table [(PyKey.str "b-c", Value.str "x")])] =
      .ok "[a]\nb-c=\"x\"\n\n" ∧
    parseTomlText "[a]\nb-c=\"x\"\n\n" 50 =
      .ok [(PyKey.str "a", Value.table [(PyKey.str "b_c", Value.str "x")])] ∧
    [(PyKey.str "a", Value.table [(PyKey.str "b_c", Value.str "x")])] ≠
      ([(PyKey.str "a", Value.table [(PyKey.str "b-c", Value.str "x")])] :
        Document) :=
  ⟨rfl, rfl, by simp⟩

end Pyappm
